import Mathlib

/-!
Shallow embedding of `include/biosoup/nucleic_acid.hpp` (class `biosoup::NucleicAcid`).

Byte buffers (`name`, `data`, `quality`) are modelled as `List Nat` of byte values.
64-bit / 32-bit machine words are modelled as `Nat` with explicit `% 2 ^ w`
wherever a wrap can actually occur; `int32_t` intermediates of the quality
quantizer are modelled as `Int` (their magnitudes never approach `2 ^ 31`).
Fallible container accesses (`std::vector::operator[]`, lookup-table reads)
are modelled with `Option`.
-/

namespace biosoup

/-- The 128-entry `kNucleotideCoder` lookup table, transcribed from the source. -/
def kNucleotideCoder : List Nat := [
    255, 255, 255, 255, 255, 255, 255, 255,
    255, 255, 255, 255, 255, 255, 255, 255,
    255, 255, 255, 255, 255, 255, 255, 255,
    255, 255, 255, 255, 255, 255, 255, 255,
    255, 255, 255, 255, 255, 255, 255, 255,
    255, 255, 255, 255, 255,   0, 255, 255,
    255, 255, 255, 255, 255, 255, 255, 255,
    255, 255, 255, 255, 255, 255, 255, 255,
    255,   0,   1,   1,   0, 255, 255,   2,
      3, 255, 255,   2, 255,   1,   0, 255,
    255, 255,   0,   1,   3,   3,   2,   0,
    255,   3, 255, 255, 255, 255, 255, 255,
    255,   0,   1,   1,   0, 255, 255,   2,
      3, 255, 255,   2, 255,   1,   0, 255,
    255, 255,   0,   1,   3,   3,   2,   0,
    255,   3, 255, 255, 255, 255, 255, 255]

/-- `kNucleotideDecoder`, the code-to-character table. -/
def kNucleotideDecoder : List Char := ['A', 'C', 'G', 'T']

/-- `kNucleotideCoder[static_cast<std::uint8_t>(data[i])]`.  The C++ table has
only 128 entries while the index ranges over 256 values; an index `≥ 128` reads
past the array (undefined behaviour), modelled here by the sentinel 255.  All
theorems that reason about rejection only quantify over bytes `< 128`. -/
def coderAt (b : Nat) : Nat := kNucleotideCoder.getD (b % 256) 255

/-- The state of a `biosoup::NucleicAcid` object.  The `id` counter and the
unused `block_quality` member are omitted: no claim mentions them. -/
structure NucleicAcid where
  name : List Nat
  deflated_data : List Nat
  deflated_quality : List Nat
  quality_levels : List Nat
  inflated_len : Nat
  is_reverse_complement : Bool
deriving Repr, DecidableEq

/-- The nucleotide-encoding loop of `NucleicAcid(name, name_len, data, data_len)`:
`block |= c << ((i << 1) & 63)` and the block is flushed when `((i+1) & 31) == 0`
or `i == data_len - 1` (the latter is `rest = []` here).  Throwing
`std::invalid_argument` on a 255 coder value is modelled by `none`. -/
def encodeDataGo (i block : Nat) (acc : List Nat) : List Nat → Option (List Nat)
  | [] => some acc.reverse
  | b :: rest =>
    let c := coderAt b
    if c = 255 then none
    else
      let block2 := block ||| (c <<< ((2 * i) % 64))
      if (i + 1) % 32 = 0 ∨ rest = [] then
        encodeDataGo (i + 1) 0 (block2 :: acc) rest
      else
        encodeDataGo (i + 1) block2 acc rest

/-- The packed `deflated_data` buffer produced by the data constructor. -/
def encodeData (data : List Nat) : Option (List Nat) :=
  encodeDataGo 0 0 [] data

/-- `NucleicAcid(name, data)`: runs the nucleotide encoder; `inflated_len` is
the input length, the quality members stay empty, orientation is forward. -/
def mkNucleicAcid (name data : List Nat) : Option NucleicAcid :=
  (encodeData data).map fun dd =>
    { name := name
      deflated_data := dd
      deflated_quality := []
      quality_levels := []
      inflated_len := data.length
      is_reverse_complement := false }

/-- `Code(i)`.  The reverse remap `i = inflated_len - i - 1` is `uint32`
arithmetic, hence the explicit wrap mod `2 ^ 32`; the word read
`deflated_data[i >> 5]` is modelled with `List.get?`. -/
def codeQ (r : NucleicAcid) (i : Nat) : Option Nat :=
  let j : Nat :=
    if r.is_reverse_complement
    then ((((r.inflated_len : Int) - (i : Int) - 1) % (2 ^ 32))).toNat
    else i
  let x : Nat := if r.is_reverse_complement then 3 else 0
  (r.deflated_data.get? (j >>> 5)).map fun w => ((w >>> ((2 * j) % 64)) &&& 3) ^^^ x

/-- `Score(i)`: the 2-bit index is read from `deflated_quality[i >> 5]`, the
level word from `quality_levels[i >> 9]`, and the byte at shift `index * 8`
is returned. -/
def scoreQ (r : NucleicAcid) (i : Nat) : Option Nat := do
  let j : Nat :=
    if r.is_reverse_complement
    then ((((r.inflated_len : Int) - (i : Int) - 1) % (2 ^ 32))).toNat
    else i
  let w ← r.deflated_quality.get? (j >>> 5)
  let index := (w >>> ((2 * j) % 64)) &&& 3
  let lw ← r.quality_levels.get? (j >>> 9)
  some ((lw >>> (index * 8)) &&& 255)

/-- `InflateData(i, len)`: empty result for `i >= inflated_len`, otherwise the
decoded characters of positions `i, …, i + min(len, inflated_len - i) - 1`. -/
def inflateData (r : NucleicAcid) (i len : Nat) : Option (List Char) :=
  if r.inflated_len ≤ i then some []
  else
    (List.range (min len (r.inflated_len - i))).mapM fun k => do
      let c ← codeQ r (i + k)
      kNucleotideDecoder.get? c

/-- `InflateQuality(i, len)`: additionally empty when `deflated_quality` is empty. -/
def inflateQuality (r : NucleicAcid) (i len : Nat) : Option (List Nat) :=
  if r.deflated_quality = [] ∨ r.inflated_len ≤ i then some []
  else
    (List.range (min len (r.inflated_len - i))).mapM fun k => do
      let s ← scoreQ r (i + k)
      some (s + 33)

/-- `ReverseAndComplement()`: `is_reverse_complement ^= 1`. -/
def reverseAndComplement (r : NucleicAcid) : NucleicAcid :=
  { r with is_reverse_complement := !r.is_reverse_complement }

/-! ### The quality quantizer -/

/-- `quality_freq[curr_quality]++`: fails (`none`) when the index is outside the
100-entry counting vector, as the C++ `operator[]` access would be out of bounds. -/
def bumpFreq (freq : List Nat) (q : Nat) : Option (List Nat) :=
  if h : q < freq.length then some (freq.set q (freq.get ⟨q, h⟩ + 1)) else none

/-- The per-window statistics loop: counting sort plus running sum over the
window's Phred values. -/
def freqSumGo (freq : List Nat) (s : Nat) : List Nat → Option (List Nat × Nat)
  | [] => some (freq, s)
  | v :: vs =>
    match bumpFreq freq v with
    | none => none
    | some f2 => freqSumGo f2 (s + v) vs

/-- `std::vector<std::int32_t> quality_freq(100, 0)` filled by the counting loop,
together with `quality_sum`. -/
def windowFreqSum (w : List Nat) : Option (List Nat × Nat) :=
  freqSumGo (List.replicate 100 0) 0 w

/-- `std::min_element(first+1, last)` scan state: `bi`/`bv` are the index and
value of the current minimum, `i` the index of the head of the remaining list.
`*it < *smallest` replaces, so the first minimum wins. -/
def minIdxGo (bi bv i : Nat) : List Nat → Nat
  | [] => bi
  | x :: xs => if x < bv then minIdxGo i x (i + 1) xs else minIdxGo bi bv (i + 1) xs

/-- `std::min_element(l.begin(), l.end()) - l.begin()` (index of the first
minimum; 0 for an empty list, which never occurs in the program). -/
def minIdx : List Nat → Nat
  | [] => 0
  | x :: xs => minIdxGo 0 x 1 xs

/-- `std::max_element` scan with comparator `a < b`: replaces only on a strict
increase, so the first maximum wins. -/
def maxElemGo (bi bv i : Nat) : List Nat → Nat
  | [] => bi
  | x :: xs => if bv < x then maxElemGo i x (i + 1) xs else maxElemGo bi bv (i + 1) xs

/-- `std::max_element(l.begin(), l.end()) - l.begin()`. -/
def maxElemIdx : List Nat → Nat
  | [] => 0
  | x :: xs => maxElemGo 0 x 1 xs

/-- `min_q`: `std::find_if(begin, end, ≠0) - begin`, stored into a `uint8_t`
(the iterator distance is at most 100, so the cast only adds a `% 256`). -/
def minQf (freq : List Nat) : Nat := (freq.findIdx fun x => x != 0) % 256

/-- `max_q`: `rend() - find_if(rbegin(), rend(), ≠0) - 1` stored into a
`uint8_t`; when no entry is nonzero the distance is `-1`, which the cast wraps
to 255, hence the explicit `Int.emod 256`. -/
def maxQf (freq : List Nat) : Nat :=
  ((((freq.length : Int) - ((freq.reverse.findIdx fun x => x != 0) : Int) - 1)) % 256).toNat

/-- `mod_q`: index of the first maximal frequency, as a `uint8_t` (≤ 99). -/
def modQf (freq : List Nat) : Nat := (maxElemIdx freq) % 256

/-- The skew split of `DecideQualityLevels`, as `std::int32_t` values:
`(num_of_lower_levels, num_of_upper_levels)`.  `quarter` is the double
`max(1.0, (max_q - min_q) / 4.0)`; since `max_q - min_q ≤ 255` the quotient
`a / quarter` is a rational with denominator at most 255 whose rounded double
is never within half an ulp of a different integer, so the C++
`static_cast<int32_t>` of it equals the exact truncated quotient: `a` when
`max_q - min_q < 4` and `tdiv (4 * a) (max_q - min_q)` otherwise. -/
def numSplit (min_q max_q avg_q mod_q : Nat) : Int × Int :=
  let d : Int := (max_q : Int) - (min_q : Int)
  if avg_q < mod_q then
    let nu : Int :=
      if d < 4 then (max_q : Int) - (mod_q : Int)
      else Int.tdiv (4 * ((max_q : Int) - (mod_q : Int))) d
    (4 - nu - 1, nu)
  else if mod_q < avg_q then
    let nl : Int :=
      if d < 4 then (mod_q : Int) - (min_q : Int)
      else Int.tdiv (4 * ((mod_q : Int) - (min_q : Int))) d
    (nl, 4 - nl - 1)
  else (1, 2)

/-- One stepping loop of the level builder: `curr_level += step` on a `uint32`
(hence the wrap mod `2 ^ 32`), emitting each updated value. -/
def stepLevels (c step : Int) : Nat → List Int
  | 0 => []
  | n + 1 =>
    let c2 := ((c + step) % (2 ^ 32) : Int)
    c2 :: stepLevels c2 step n

/-- The level values of `DecideQualityLevels` in insertion order (`num_lower`
stepped values from `min_q`, then `mod_q`, then `num_upper` stepped values),
still as the raw `uint32` contents of `curr_level`. -/
def rawLevels (min_q max_q avg_q mod_q : Nat) : List Int :=
  let nums := numSplit min_q max_q avg_q mod_q
  let upper_step : Int := Int.tdiv ((max_q : Int) - (mod_q : Int)) (nums.2 + 1)
  let lower_step : Int := Int.tdiv ((mod_q : Int) - (min_q : Int)) (nums.1 + 1)
  stepLevels (min_q : Int) lower_step nums.1.toNat ++
    (mod_q : Int) :: stepLevels (mod_q : Int) upper_step nums.2.toNat

/-- The `curr_levels` vector after the final `std::reverse`, i.e. in reverse
insertion order; each entry went through `static_cast<uint8_t>`. -/
def levelsOf (min_q max_q avg_q mod_q : Nat) : List Nat :=
  ((rawLevels min_q max_q avg_q mod_q).map fun c => (c % 256).toNat).reverse

/-- The packed `discretization_levels` word: `w = (w << 8) | level` on a
`uint32` for each level in insertion order. -/
def levelsWord (min_q max_q avg_q mod_q : Nat) : Nat :=
  (rawLevels min_q max_q avg_q mod_q).foldl
    (fun w c => ((w <<< 8) ||| c.toNat) % 2 ^ 32) 0

/-- `DecideQualityLevels(quality_freq, curr_levels, quality_sum, index_limit, i)`:
computes the window statistics and returns (`curr_levels` after its reversal,
the word appended to `quality_levels`).  `avg_q` is
`uint8(quality_sum / (index_limit - i))`. -/
def decideQualityLevels (freq : List Nat) (quality_sum index_limit i : Nat) :
    List Nat × Nat :=
  let min_q := minQf freq
  let max_q := maxQf freq
  let avg_q := (quality_sum / (index_limit - i)) % 256
  let mod_q := modQf freq
  (levelsOf min_q max_q avg_q mod_q, levelsWord min_q max_q avg_q mod_q)

/-- The distance vector `diffs`: `std::abs(x - curr_quality)` over `curr_levels`. -/
def diffsOf (lv : List Nat) (v : Nat) : List Nat :=
  lv.map fun (x : Nat) => ((x : Int) - (v : Int)).natAbs

/-- The 2-bit code chosen for one quality value: index of the first closest level. -/
def codeOfVal (lv : List Nat) (v : Nat) : Nat := minIdx (diffsOf lv v)

/-- The per-window encoding loop over the window's Phred values `vals`
(absolute positions from `j`): `block |= c << ((j << 1) & 63)`, flushed when
`j == quality_len - 1 || ((j + 1) & 31) == 0`. -/
def encWindowGo (qlen : Nat) (lv : List Nat) (j block : Nat) (acc : List Nat) :
    List Nat → List Nat
  | [] => acc.reverse
  | v :: rest =>
    let c := codeOfVal lv v
    let block2 := block ||| (c <<< ((2 * j) % 64))
    if j = qlen - 1 ∨ (j + 1) % 32 = 0 then
      encWindowGo qlen lv (j + 1) 0 (block2 :: acc) rest
    else
      encWindowGo qlen lv (j + 1) block2 acc rest

/-- The window loop `for (i = 0; i < quality_len; i += 512)` of the quality
constructor, processing the remaining suffix `vals` of Phred values starting at
absolute position `i`; returns the blocks appended to `deflated_quality` and
the words appended to `quality_levels`. -/
def qualLoop (qlen : Nat) (i : Nat) (vals : List Nat) :
    Option (List Nat × List Nat) :=
  if h : vals = [] then some ([], [])
  else
    match windowFreqSum (vals.take 512) with
    | none => none
    | some fs =>
      match qualLoop qlen (i + 512) (vals.drop 512) with
      | none => none
      | some rest =>
        some (encWindowGo qlen (decideQualityLevels fs.1 fs.2 (min (i + 512) qlen) i).1
            i 0 [] (vals.take 512) ++ rest.1,
          (decideQualityLevels fs.1 fs.2 (min (i + 512) qlen) i).2 :: rest.2)
termination_by vals.length
decreasing_by
  simp only [List.length_drop]
  have h2 : 0 < vals.length := List.length_pos.mpr h
  omega

/-- The Phred values `uint8(quality[j] - '!')` of the quality buffer. -/
def phredVals (quality : List Nat) : List Nat :=
  quality.map fun b => (b + 223) % 256

/-- `NucleicAcid(name, data, quality)`: the delegated data constructor runs
first (failing fast on a bad alphabet), then the window loop fills
`deflated_quality` and `quality_levels`. -/
def mkNucleicAcidQ (name data quality : List Nat) : Option NucleicAcid := do
  let base ← mkNucleicAcid name data
  let dq ← qualLoop quality.length 0 (phredVals quality)
  some { base with deflated_quality := dq.1, quality_levels := dq.2 }

/-! ### Closed-form descriptions of the packed buffers

The functions below restate the results of the encoding loops without an
accumulator: `packWord` is the value of one 64-bit block, `packWords` the whole
packed buffer, and the `win…` functions describe one 512-value quality window.
They are proved equal to the loop results and make the theorem statements
readable. -/

/-- One 64-bit block holding 2-bit codes, lowest index in the lowest bit pair. -/
def packWord (cs : List Nat) : Nat := cs.foldr (fun c w => w * 4 + c) 0

/-- The packed buffer: blocks of 32 codes, the final block possibly partial. -/
def packWords (cs : List Nat) : List Nat :=
  if cs = [] then [] else packWord (cs.take 32) :: packWords (cs.drop 32)
termination_by cs.length
decreasing_by
  simp only [List.length_drop]
  have h2 : 0 < cs.length := List.length_pos.mpr (by assumption)
  omega

/-- The 2-bit read `(words[i >> 5] >> ((i << 1) & 63)) & 3` shared by `Code`
and `Score`. -/
def extractCode (words : List Nat) (i : Nat) : Option Nat :=
  (words.get? (i >>> 5)).map fun w => (w >>> ((2 * i) % 64)) &&& 3

/-- The successive 512-value windows of a quality stream. -/
def windowsOf (vals : List Nat) : List (List Nat) :=
  if vals = [] then [] else vals.take 512 :: windowsOf (vals.drop 512)
termination_by vals.length
decreasing_by
  simp only [List.length_drop]
  have h2 : 0 < vals.length := List.length_pos.mpr (by assumption)
  omega

/-- The counting vector a window produces: entry `v` is the number of
occurrences of the Phred value `v` in the window. -/
def freqSpec (w : List Nat) : List Nat := (List.range 100).map fun v => w.count v

/-- `min_q` of a window. -/
def winMin (w : List Nat) : Nat := minQf (freqSpec w)

/-- `max_q` of a window. -/
def winMax (w : List Nat) : Nat := maxQf (freqSpec w)

/-- `avg_q` of a window. -/
def winAvg (w : List Nat) : Nat := (w.sum / w.length) % 256

/-- `mod_q` of a window. -/
def winMod (w : List Nat) : Nat := modQf (freqSpec w)

/-- The window's 4-entry decode table (`curr_levels` after its reversal, i.e.
index 0 is the last-inserted, least-significant level). -/
def winLevels (w : List Nat) : List Nat :=
  levelsOf (winMin w) (winMax w) (winAvg w) (winMod w)

/-- The window's packed 32-bit `quality_levels` word. -/
def winWord (w : List Nat) : Nat :=
  levelsWord (winMin w) (winMax w) (winAvg w) (winMod w)

/-- All 2-bit quality codes of a stream, window by window. -/
def codesList (vals : List Nat) : List Nat :=
  ((windowsOf vals).map fun w => w.map (codeOfVal (winLevels w))).flatten

/-- All `quality_levels` words of a stream. -/
def levelWords (vals : List Nat) : List Nat := (windowsOf vals).map winWord

/-! ## Lemmas about bit packing -/

theorem and_three (x : Nat) : x &&& 3 = x % 4 := by
  have h := Nat.and_pow_two_sub_one_eq_mod x 2
  norm_num at h
  exact h

theorem and_255 (x : Nat) : x &&& 255 = x % 256 := by
  have h := Nat.and_pow_two_sub_one_eq_mod x 8
  norm_num at h
  exact h

theorem or_shift_eq_add {a : Nat} (c k : Nat) (h : a < 2 ^ k) :
    a ||| (c <<< k) = a + c * 2 ^ k := by
  rw [Nat.shiftLeft_eq, Nat.lor_comm, Nat.add_comm a, Nat.mul_comm c]
  exact (Nat.mul_add_lt_is_or h c).symm

theorem packWord_nil : packWord [] = 0 := rfl

theorem packWord_cons (c : Nat) (cs : List Nat) :
    packWord (c :: cs) = 4 * packWord cs + c := by
  simp [packWord, Nat.mul_comm]

theorem packWord_lt (cs : List Nat) (h4 : ∀ c ∈ cs, c < 4) :
    packWord cs < 4 ^ cs.length := by
  induction cs with
  | nil => simp [packWord_nil]
  | cons c cs ih =>
    rw [packWord_cons]
    have hc : c < 4 := h4 c (by simp)
    have hr : packWord cs < 4 ^ cs.length := ih fun x hx => h4 x (by simp [hx])
    calc 4 * packWord cs + c < 4 * packWord cs + 4 := by omega
      _ = 4 * (packWord cs + 1) := by ring
      _ ≤ 4 * 4 ^ cs.length := by omega
      _ = 4 ^ (c :: cs).length := by rw [List.length_cons]; ring

theorem packWord_snoc (cs : List Nat) (c : Nat) :
    packWord (cs ++ [c]) = packWord cs + c * 4 ^ cs.length := by
  induction cs with
  | nil => simp [packWord_nil, packWord_cons]
  | cons d cs ih =>
    rw [List.cons_append, packWord_cons, packWord_cons, ih, List.length_cons]
    ring

theorem packWord_extract (cs : List Nat) (h4 : ∀ c ∈ cs, c < 4) (k : Nat)
    (hk : k < cs.length) :
    (packWord cs >>> (2 * k)) &&& 3 = cs.getD k 0 := by
  induction cs generalizing k with
  | nil => simp at hk
  | cons c cs ih =>
    have hc : c < 4 := h4 c (by simp)
    cases k with
    | zero =>
      rw [Nat.mul_zero, Nat.shiftRight_zero, and_three, packWord_cons,
        Nat.mul_add_mod]
      simpa using Nat.mod_eq_of_lt hc
    | succ k =>
      have hk' : k < cs.length := by simpa using hk
      have step : packWord (c :: cs) >>> (2 * (k + 1)) = packWord cs >>> (2 * k) := by
        rw [Nat.shiftRight_eq_div_pow, Nat.shiftRight_eq_div_pow, packWord_cons]
        have h1 : 2 * (k + 1) = 2 + 2 * k := by ring
        rw [h1, pow_add, ← Nat.div_div_eq_div_mul]
        congr 1
        have : (2 : Nat) ^ 2 = 4 := by norm_num
        rw [this, Nat.mul_add_div (by norm_num), Nat.div_eq_of_lt hc]
        omega
      rw [step, ih (fun x hx => h4 x (by simp [hx])) k hk']
      simp

theorem packWords_nil : packWords [] = [] := by
  rw [packWords]
  simp

theorem packWords_cons (cs : List Nat) (h : cs ≠ []) :
    packWords cs = packWord (cs.take 32) :: packWords (cs.drop 32) := by
  rw [packWords]
  simp [h]

theorem packWords_small (cs : List Nat) (h1 : cs ≠ []) (h2 : cs.length ≤ 32) :
    packWords cs = [packWord cs] := by
  rw [packWords_cons cs h1, List.take_of_length_le h2, List.drop_of_length_le h2,
    packWords_nil]

theorem packWords_extract (cs : List Nat) (h4 : ∀ c ∈ cs, c < 4) (i : Nat)
    (hi : i < cs.length) :
    extractCode (packWords cs) i = some (cs.getD i 0) := by
  have hne : cs ≠ [] := by
    intro h
    rw [h] at hi
    simp at hi
  rw [packWords_cons cs hne]
  by_cases h32 : i < 32
  · have hdiv : i >>> 5 = 0 := by
      rw [Nat.shiftRight_eq_div_pow]
      omega
    have hmod : (2 * i) % 64 = 2 * i := by omega
    rw [extractCode, hdiv, hmod]
    simp only [List.get?_eq_getElem?, List.getElem?_cons_zero, Option.map_some']
    have htake : ∀ c ∈ cs.take 32, c < 4 := fun c hc => h4 c (List.mem_of_mem_take hc)
    have hlen : i < (cs.take 32).length := by
      simp [List.length_take]
      omega
    rw [packWord_extract (cs.take 32) htake i hlen]
    congr 1
    rw [List.getD_eq_getElem?_getD, List.getD_eq_getElem?_getD, List.getElem?_take]
    simp [h32]
  · have hdiv : i >>> 5 = (i - 32) >>> 5 + 1 := by
      rw [Nat.shiftRight_eq_div_pow, Nat.shiftRight_eq_div_pow]
      omega
    have hmod : (2 * i) % 64 = (2 * (i - 32)) % 64 := by omega
    have key : extractCode (packWord (cs.take 32) :: packWords (cs.drop 32)) i
        = extractCode (packWords (cs.drop 32)) (i - 32) := by
      rw [extractCode, extractCode, hdiv, hmod]
      simp only [List.get?_eq_getElem?, List.getElem?_cons_succ]
    have hdrop : ∀ c ∈ cs.drop 32, c < 4 := fun c hc => h4 c (List.mem_of_mem_drop hc)
    have hlen : i - 32 < (cs.drop 32).length := by
      simp [List.length_drop]
      omega
    rw [key, packWords_extract (cs.drop 32) hdrop (i - 32) hlen]
    congr 1
    rw [List.getD_eq_getElem?_getD, List.getD_eq_getElem?_getD, List.getElem?_drop]
    congr 2
    omega
termination_by cs.length
decreasing_by
  simp only [List.length_drop]
  have h2 : 0 < cs.length := List.length_pos.mpr hne
  omega

theorem packWords_append (a b : List Nat) (ha : 32 ∣ a.length) :
    packWords (a ++ b) = packWords a ++ packWords b := by
  by_cases hn : a = []
  · simp [hn, packWords_nil]
  · have h32 : 32 ≤ a.length := by
      rcases ha with ⟨k, hk⟩
      have : 0 < a.length := List.length_pos.mpr hn
      omega
    have hne : a ++ b ≠ [] := by simp [hn]
    rw [packWords_cons _ hne, packWords_cons _ hn]
    rw [List.take_append_eq_append_take, List.drop_append_eq_append_drop]
    have ht : b.take (32 - a.length) = [] := by
      have : 32 - a.length = 0 := by omega
      simp [this]
    have hd : b.drop (32 - a.length) = b := by
      have : 32 - a.length = 0 := by omega
      simp [this]
    rw [ht, hd, List.append_nil]
    have hrec := packWords_append (a.drop 32) b (by
      rcases ha with ⟨k, hk⟩
      refine ⟨k - 1, ?_⟩
      simp only [List.length_drop]
      omega)
    rw [hrec]
    simp
termination_by a.length
decreasing_by
  simp only [List.length_drop]
  have h2 : 0 < a.length := List.length_pos.mpr hn
  omega

/-! ## The nucleotide encoder -/

set_option maxRecDepth 4096 in
theorem coderAt_cases (b : Nat) : coderAt b = 255 ∨ coderAt b < 4 := by
  have hm : b % 256 < 256 := Nat.mod_lt b (by norm_num)
  have key : ∀ m, m < 256 → kNucleotideCoder.getD m 255 = 255 ∨
      kNucleotideCoder.getD m 255 < 4 := by decide
  exact key (b % 256) hm

theorem encodeDataGo_none (rest : List Nat) (hbad : ∃ b ∈ rest, coderAt b = 255) :
    ∀ i block acc, encodeDataGo i block acc rest = none := by
  induction rest with
  | nil => simp at hbad
  | cons b rest ih =>
    intro i block acc
    rcases hbad with ⟨x, hx, hcx⟩
    rcases List.mem_cons.mp hx with rfl | hx'
    · simp [encodeDataGo, hcx]
    · by_cases hb : coderAt b = 255
      · simp [encodeDataGo, hb]
      · have ihx := ih ⟨x, hx', hcx⟩
        simp only [encodeDataGo, hb, if_false]
        split <;> exact ihx _ _ _

theorem encodeDataGo_cons (i block : Nat) (acc : List Nat) (b : Nat)
    (rest : List Nat) (hc : coderAt b ≠ 255) :
    encodeDataGo i block acc (b :: rest) =
      if (i + 1) % 32 = 0 ∨ rest = [] then
        encodeDataGo (i + 1) 0 ((block ||| (coderAt b <<< ((2 * i) % 64))) :: acc) rest
      else
        encodeDataGo (i + 1) (block ||| (coderAt b <<< ((2 * i) % 64))) acc rest := by
  rw [encodeDataGo]
  simp [hc]

theorem encodeDataGo_ok (rest : List Nat) :
    ∀ (pending acc : List Nat) (i : Nat),
      rest ≠ [] →
      (∀ b ∈ rest, coderAt b ≠ 255) →
      (∀ c ∈ pending, c < 4) →
      i % 32 = pending.length →
      encodeDataGo i (packWord pending) acc rest =
        some (acc.reverse ++ packWords (pending ++ rest.map coderAt)) := by
  induction rest with
  | nil => intro _ _ _ hne; exact absurd rfl hne
  | cons b rest ih =>
    intro pending acc i _ hok h4 hilen
    have hc : coderAt b ≠ 255 := hok b (by simp)
    have hc4 : coderAt b < 4 := (coderAt_cases b).resolve_left hc
    have hplen : pending.length < 32 := by
      rw [← hilen]
      exact Nat.mod_lt i (by norm_num)
    have hmod : (2 * i) % 64 = 2 * pending.length := by omega
    have h44 : (4 : Nat) ^ pending.length = 2 ^ (2 * pending.length) := by
      rw [pow_mul]
      norm_num
    have hlt : packWord pending < 2 ^ (2 * pending.length) := by
      have := packWord_lt pending h4
      omega
    have hblock : packWord pending ||| (coderAt b <<< ((2 * i) % 64)) =
        packWord (pending ++ [coderAt b]) := by
      rw [hmod, or_shift_eq_add _ _ hlt, packWord_snoc, h44]
    have h4' : ∀ c ∈ pending ++ [coderAt b], c < 4 := by
      intro c hcmem
      rcases List.mem_append.mp hcmem with h | h
      · exact h4 c h
      · simp at h
        omega
    cases rest with
    | nil =>
      rw [encodeDataGo_cons _ _ _ _ _ hc, if_pos (Or.inr rfl), hblock]
      have hbase : encodeDataGo (i + 1) 0 (packWord (pending ++ [coderAt b]) :: acc) [] =
          some (packWord (pending ++ [coderAt b]) :: acc).reverse := rfl
      rw [hbase]
      rw [show pending ++ List.map coderAt [b] = pending ++ [coderAt b] by simp]
      rw [packWords_small (pending ++ [coderAt b]) (by simp) (by simp; omega)]
      simp
    | cons b2 rest2 =>
      have hok' : ∀ x ∈ b2 :: rest2, coderAt x ≠ 255 := fun x hx => hok x (by simp [hx])
      have hsplit : pending ++ List.map coderAt (b :: b2 :: rest2) =
          (pending ++ [coderAt b]) ++ (b2 :: rest2).map coderAt := by
        simp
      rw [encodeDataGo_cons _ _ _ _ _ hc, hblock, hsplit]
      by_cases hflush : (i + 1) % 32 = 0
      · have hp31 : pending.length = 31 := by omega
        rw [if_pos (Or.inl hflush)]
        have := ih [] (packWord (pending ++ [coderAt b]) :: acc) (i + 1)
          (by simp) hok' (by simp) (by simp [hflush])
        rw [packWord_nil] at this
        simp only [List.nil_append] at this
        rw [this,
          packWords_append (pending ++ [coderAt b]) ((b2 :: rest2).map coderAt)
            (by simp [hp31]),
          packWords_small (pending ++ [coderAt b]) (by simp) (by simp; omega)]
        simp
      · rw [if_neg (by simp [hflush])]
        have := ih (pending ++ [coderAt b]) acc (i + 1)
          (by simp) hok' h4' (by simp; omega)
        rw [this]

theorem encodeData_ok (data : List Nat) (hok : ∀ b ∈ data, coderAt b ≠ 255) :
    encodeData data = some (packWords (data.map coderAt)) := by
  cases data with
  | nil => simp [encodeData, encodeDataGo, packWords_nil]
  | cons b rest =>
    have := encodeDataGo_ok (b :: rest) [] [] 0 (by simp) hok (by simp) (by simp)
    rw [packWord_nil] at this
    simpa [encodeData] using this

theorem mkNucleicAcid_eq (name data : List Nat) (hok : ∀ b ∈ data, coderAt b ≠ 255) :
    mkNucleicAcid name data = some
      { name := name
        deflated_data := packWords (data.map coderAt)
        deflated_quality := []
        quality_levels := []
        inflated_len := data.length
        is_reverse_complement := false } := by
  rw [mkNucleicAcid, encodeData_ok data hok]
  rfl

theorem codeQ_forward (r : NucleicAcid) (hf : r.is_reverse_complement = false)
    (i : Nat) : codeQ r i = extractCode r.deflated_data i := by
  simp [codeQ, extractCode, hf]

theorem mapM_eq_some_map {α β : Type} (l : List α) (f : α → Option β) (g : α → β)
    (h : ∀ a ∈ l, f a = some (g a)) : l.mapM f = some (l.map g) := by
  induction l with
  | nil => rfl
  | cons a l ih =>
    rw [List.mapM_cons, h a (by simp), ih fun x hx => h x (by simp [hx])]
    rfl

theorem map_range_getD {α β : Type} (l : List α) (d : α) (g : α → β) :
    (List.range l.length).map (fun k => g (l.getD k d)) = l.map g := by
  induction l with
  | nil => simp
  | cons a l _ih =>
    rw [List.length_cons, List.range_succ_eq_map, List.map_cons, List.map_map]
    simp only [List.getD_cons_zero]
    congr 1

set_option maxRecDepth 4096 in
theorem decoder_upper {b : Nat} (hb : b ∈ ([65, 67, 71, 84, 97, 99, 103, 116] : List Nat)) :
    kNucleotideDecoder.get? (coderAt b) =
      some (Char.ofNat (if 97 ≤ b then b - 32 else b)) := by
  fin_cases hb <;> decide

/-! ## Window statistics -/

theorem getElem_eq_getD (l : List Nat) {i : Nat} (h : i < l.length) :
    l[i] = l.getD i 0 := by
  rw [List.getD_eq_getElem?_getD, List.getElem?_eq_getElem h]
  rfl

theorem getD_replicate_zero (k n : Nat) : (List.replicate n (0 : Nat)).getD k 0 = 0 := by
  rw [List.getD_eq_getElem?_getD, List.getElem?_replicate]
  split <;> rfl

theorem list_eq_range_map (l : List Nat) :
    (List.range l.length).map (fun k => l.getD k 0) = l := by
  simpa using map_range_getD l 0 id

theorem freqSumGo_ok (vs : List Nat) : ∀ (freq : List Nat) (s : Nat),
    (∀ v ∈ vs, v < freq.length) →
    freqSumGo freq s vs =
      some ((List.range freq.length).map fun k => freq.getD k 0 + vs.count k,
        s + vs.sum) := by
  induction vs with
  | nil =>
    intro freq s _
    simp only [freqSumGo, List.count_nil, Nat.add_zero, List.sum_nil]
    rw [list_eq_range_map freq]
  | cons v vs ih =>
    intro freq s hlt
    have hv : v < freq.length := hlt v (by simp)
    have hget : freq.get ⟨v, hv⟩ = freq.getD v 0 := by
      rw [List.get_eq_getElem, getElem_eq_getD freq hv]
    rw [freqSumGo, bumpFreq, dif_pos hv]
    show freqSumGo (freq.set v (freq.get ⟨v, hv⟩ + 1)) (s + v) vs = _
    rw [ih (freq.set v (freq.get ⟨v, hv⟩ + 1)) (s + v)
      (by simpa using fun x hx => hlt x (by simp [hx]))]
    congr 2
    · rw [List.length_set]
      apply List.map_congr_left
      intro k hk
      have hk' : k < freq.length := List.mem_range.mp hk
      have hset : (freq.set v (freq.get ⟨v, hv⟩ + 1)).getD k 0 =
          if v = k then freq.getD v 0 + 1 else freq.getD k 0 := by
        rw [List.getD_eq_getElem?_getD, List.getElem?_set]
        by_cases hvk : v = k
        · subst hvk
          rw [if_pos rfl, if_pos hv, if_pos rfl]
          simp [hget, List.getD_eq_getElem?_getD, List.getElem?_eq_getElem hv]
        · rw [if_neg hvk, if_neg hvk, ← List.getD_eq_getElem?_getD]
      rw [hset, List.count_cons]
      by_cases hvk : v = k <;> simp [hvk] <;> omega
    · simp [List.sum_cons]
      omega

theorem freqSpec_length (w : List Nat) : (freqSpec w).length = 100 := by
  simp [freqSpec]

theorem freqSpec_getD (w : List Nat) {k : Nat} (hk : k < 100) :
    (freqSpec w).getD k 0 = w.count k := by
  rw [freqSpec, List.getD_eq_getElem?_getD, List.getElem?_map,
    List.getElem?_range hk]
  rfl

theorem windowFreqSum_ok (w : List Nat) (h : ∀ v ∈ w, v < 100) :
    windowFreqSum w = some (freqSpec w, w.sum) := by
  rw [windowFreqSum, freqSumGo_ok w _ 0 (by simpa using h)]
  simp only [List.length_replicate, Nat.zero_add]
  have hmap : (List.map (fun k => (List.replicate 100 (0 : Nat)).getD k 0 + List.count k w)
      (List.range 100)) = freqSpec w := by
    rw [freqSpec]
    apply List.map_congr_left
    intro k _
    rw [getD_replicate_zero]
    omega
  rw [hmap]

theorem count_ne_zero_iff_mem {v : Nat} {w : List Nat} : w.count v ≠ 0 ↔ v ∈ w := by
  rw [← List.count_pos_iff]
  omega

theorem winMin_spec (w : List Nat) (hne : w ≠ []) (h100 : ∀ v ∈ w, v < 100) :
    winMin w ∈ w ∧ ∀ v ∈ w, winMin w ≤ v := by
  obtain ⟨v0, hv0⟩ := List.exists_mem_of_ne_nil w hne
  have hv0100 : v0 < 100 := h100 v0 hv0
  have hlenF : (freqSpec w).length = 100 := freqSpec_length w
  have hexists : ∃ x ∈ freqSpec w, (x != 0) = true := by
    have hvlt : v0 < (freqSpec w).length := by omega
    refine ⟨(freqSpec w)[v0], List.getElem_mem hvlt, ?_⟩
    rw [getElem_eq_getD _ hvlt, freqSpec_getD w hv0100]
    simpa using count_ne_zero_iff_mem.mpr hv0
  have hidx : (freqSpec w).findIdx (fun x => x != 0) < (freqSpec w).length :=
    List.findIdx_lt_length.mpr hexists
  have hn100 : (freqSpec w).findIdx (fun x => x != 0) < 100 := by omega
  have hmin : winMin w = (freqSpec w).findIdx (fun x => x != 0) := by
    rw [winMin, minQf]
    exact Nat.mod_eq_of_lt (by omega)
  constructor
  · have hp := @List.findIdx_getElem _ (fun x => x != 0) (freqSpec w) hidx
    rw [getElem_eq_getD _ hidx, freqSpec_getD w hn100] at hp
    rw [hmin]
    exact count_ne_zero_iff_mem.mp (by simpa using hp)
  · intro v hv
    by_contra hlt
    push_neg at hlt
    rw [hmin] at hlt
    have hv100 : v < 100 := h100 v hv
    have hvlen : v < (freqSpec w).length := by omega
    have hfalse := List.not_of_lt_findIdx hlt
    rw [getElem_eq_getD _ hvlen, freqSpec_getD w hv100] at hfalse
    exact count_ne_zero_iff_mem.mpr hv (by simpa using hfalse)

theorem freqSpec_reverse_getD (w : List Nat) {i : Nat} (hi : i < 100) :
    (freqSpec w).reverse.getD i 0 = (freqSpec w).getD (99 - i) 0 := by
  have hlen : i < (freqSpec w).length := by rw [freqSpec_length]; omega
  rw [List.getD_eq_getElem?_getD, List.getD_eq_getElem?_getD,
    List.getElem?_reverse hlen, freqSpec_length]

theorem winMax_spec (w : List Nat) (hne : w ≠ []) (h100 : ∀ v ∈ w, v < 100) :
    winMax w ∈ w ∧ ∀ v ∈ w, v ≤ winMax w := by
  obtain ⟨v0, hv0⟩ := List.exists_mem_of_ne_nil w hne
  have hv0100 : v0 < 100 := h100 v0 hv0
  have hlenR : (freqSpec w).reverse.length = 100 := by
    rw [List.length_reverse, freqSpec_length]
  have hexists : ∃ x ∈ (freqSpec w).reverse, (x != 0) = true := by
    have hvlt : 99 - v0 < (freqSpec w).reverse.length := by omega
    refine ⟨(freqSpec w).reverse[99 - v0], List.getElem_mem hvlt, ?_⟩
    rw [getElem_eq_getD _ hvlt, freqSpec_reverse_getD w (by omega)]
    have h99 : 99 - (99 - v0) = v0 := by omega
    rw [h99, freqSpec_getD w hv0100]
    simpa using count_ne_zero_iff_mem.mpr hv0
  have hidx : (freqSpec w).reverse.findIdx (fun x => x != 0) <
      (freqSpec w).reverse.length := List.findIdx_lt_length.mpr hexists
  set j := (freqSpec w).reverse.findIdx (fun x => x != 0) with hjdef
  have hj100 : j < 100 := by omega
  have hmax : winMax w = 99 - j := by
    rw [winMax, maxQf, freqSpec_length, ← hjdef]
    omega
  constructor
  · have hp := @List.findIdx_getElem _ (fun x => x != 0) ((freqSpec w).reverse) hidx
    rw [getElem_eq_getD _ hidx, freqSpec_reverse_getD w hj100,
      freqSpec_getD w (by omega)] at hp
    rw [hmax]
    exact count_ne_zero_iff_mem.mp (by simpa using hp)
  · intro v hv
    by_contra hgt
    push_neg at hgt
    rw [hmax] at hgt
    have hv100 : v < 100 := h100 v hv
    have hrevlt : 99 - v < j := by omega
    have hfalse := List.not_of_lt_findIdx hrevlt
    have hvlen : 99 - v < (freqSpec w).reverse.length := by omega
    rw [getElem_eq_getD _ hvlen, freqSpec_reverse_getD w (by omega)] at hfalse
    have h99 : 99 - (99 - v) = v := by omega
    rw [h99, freqSpec_getD w hv100] at hfalse
    exact count_ne_zero_iff_mem.mpr hv (by simpa using hfalse)

theorem maxElemGo_spec (rest : List Nat) : ∀ bi bv i,
    (maxElemGo bi bv i rest = bi ∧ ∀ k, k < rest.length → rest.getD k 0 ≤ bv) ∨
    (∃ j, j < rest.length ∧ maxElemGo bi bv i rest = i + j ∧ bv ≤ rest.getD j 0 ∧
      ∀ k, k < rest.length → rest.getD k 0 ≤ rest.getD j 0) := by
  induction rest with
  | nil =>
    intro bi bv i
    left
    exact ⟨rfl, by simp⟩
  | cons x xs ih =>
    intro bi bv i
    rw [maxElemGo]
    by_cases hx : bv < x
    · rw [if_pos hx]
      rcases ih i x (i + 1) with ⟨heq, hall⟩ | ⟨j, hj, heq, hge, hall⟩
      · right
        refine ⟨0, by simp, by simpa using heq, by simpa using le_of_lt hx, ?_⟩
        intro k hk
        cases k with
        | zero => simp
        | succ k =>
          simp only [List.getD_cons_succ, List.getD_cons_zero]
          exact hall k (by simpa using hk)
      · right
        refine ⟨j + 1, by simpa using hj, by rw [heq]; omega, ?_, ?_⟩
        · simp only [List.getD_cons_succ]
          exact le_trans (le_of_lt hx) hge
        · intro k hk
          cases k with
          | zero => simpa using hge
          | succ k =>
            simp only [List.getD_cons_succ]
            exact hall k (by simpa using hk)
    · rw [if_neg hx]
      push_neg at hx
      rcases ih bi bv (i + 1) with ⟨heq, hall⟩ | ⟨j, hj, heq, hge, hall⟩
      · left
        refine ⟨heq, ?_⟩
        intro k hk
        cases k with
        | zero => simpa using hx
        | succ k =>
          simp only [List.getD_cons_succ]
          exact hall k (by simpa using hk)
      · right
        refine ⟨j + 1, by simpa using hj, by rw [heq]; omega, ?_, ?_⟩
        · simp only [List.getD_cons_succ]
          exact hge
        · intro k hk
          cases k with
          | zero =>
            simp only [List.getD_cons_succ, List.getD_cons_zero]
            exact le_trans hx hge
          | succ k =>
            simp only [List.getD_cons_succ]
            exact hall k (by simpa using hk)

theorem maxElemIdx_spec (l : List Nat) (hne : l ≠ []) :
    maxElemIdx l < l.length ∧ ∀ k, k < l.length → l.getD k 0 ≤ l.getD (maxElemIdx l) 0 := by
  cases l with
  | nil => exact absurd rfl hne
  | cons x xs =>
    rw [maxElemIdx]
    rcases maxElemGo_spec xs 0 x 1 with ⟨heq, hall⟩ | ⟨j, hj, heq, hge, hall⟩
    · rw [heq]
      refine ⟨by simp, ?_⟩
      intro k hk
      cases k with
      | zero => simp
      | succ k =>
        simp only [List.getD_cons_succ, List.getD_cons_zero]
        exact hall k (by simpa using hk)
    · rw [heq]
      refine ⟨by simp; omega, ?_⟩
      intro k hk
      have h1j : 1 + j = j + 1 := by omega
      cases k with
      | zero =>
        rw [h1j]
        simpa using hge
      | succ k =>
        rw [h1j]
        simp only [List.getD_cons_succ]
        exact hall k (by simpa using hk)

theorem winMod_spec (w : List Nat) (hne : w ≠ []) (h100 : ∀ v ∈ w, v < 100) :
    winMod w ∈ w := by
  obtain ⟨v0, hv0⟩ := List.exists_mem_of_ne_nil w hne
  have hv0100 : v0 < 100 := h100 v0 hv0
  have hlenF : (freqSpec w).length = 100 := freqSpec_length w
  have hFne : freqSpec w ≠ [] := by
    intro h
    rw [h] at hlenF
    simp at hlenF
  obtain ⟨hmlt, hmax⟩ := maxElemIdx_spec (freqSpec w) hFne
  have hm100 : maxElemIdx (freqSpec w) < 100 := by omega
  have hmod : winMod w = maxElemIdx (freqSpec w) := by
    rw [winMod, modQf]
    exact Nat.mod_eq_of_lt (by omega)
  have hv0c := hmax v0 (by omega)
  rw [freqSpec_getD w hv0100, freqSpec_getD w hm100] at hv0c
  have hcv0 : w.count v0 ≠ 0 := count_ne_zero_iff_mem.mpr hv0
  rw [hmod]
  exact count_ne_zero_iff_mem.mp (by omega)

theorem winAvg_spec (w : List Nat) (hne : w ≠ []) (h100 : ∀ v ∈ w, v < 100) :
    winMin w ≤ winAvg w ∧ winAvg w ≤ winMax w := by
  have hlen : 0 < w.length := List.length_pos.mpr hne
  have hminw := winMin_spec w hne h100
  have hmaxw := winMax_spec w hne h100
  have hmax99 : winMax w < 100 := h100 _ hmaxw.1
  have hlow : w.length * winMin w ≤ w.sum := by
    have := List.card_nsmul_le_sum w (winMin w) hminw.2
    simpa [smul_eq_mul] using this
  have hhigh : w.sum ≤ w.length * winMax w := by
    have := List.sum_le_card_nsmul w (winMax w) hmaxw.2
    simpa [smul_eq_mul] using this
  have hdivle : w.sum / w.length ≤ winMax w := Nat.div_le_of_le_mul hhigh
  have hdivge : winMin w ≤ w.sum / w.length :=
    (Nat.le_div_iff_mul_le hlen).mpr (by rw [Nat.mul_comm]; exact hlow)
  have havg : winAvg w = w.sum / w.length := by
    rw [winAvg]
    exact Nat.mod_eq_of_lt (by omega)
  rw [havg]
  exact ⟨hdivge, hdivle⟩

/-! ## The level builder -/

theorem tdiv_coe (a b : Nat) : Int.tdiv (a : Int) (b : Int) = ((a / b : Nat) : Int) := rfl

theorem numSplit_eq (min_q max_q avg_q mod_q : Nat)
    (hm1 : min_q ≤ mod_q) (hm2 : mod_q ≤ max_q)
    (ha1 : min_q ≤ avg_q) (ha2 : avg_q ≤ max_q) :
    ∃ nl nu : Nat, nl + nu = 3 ∧
      numSplit min_q max_q avg_q mod_q = ((nl : Int), (nu : Int)) := by
  rw [numSplit]
  by_cases h1 : avg_q < mod_q
  · rw [if_pos h1]
    have hminlt : min_q < mod_q := lt_of_le_of_lt ha1 h1
    by_cases hd : ((max_q : Int) - (min_q : Int)) < 4
    · rw [if_pos hd]
      refine ⟨3 - (max_q - mod_q), max_q - mod_q, by omega, ?_⟩
      simp only [Prod.mk.injEq]
      constructor <;> omega
    · rw [if_neg hd]
      have hd4 : 4 ≤ max_q - min_q := by omega
      have e1 : 4 * ((max_q : Int) - mod_q) = ((4 * (max_q - mod_q) : Nat) : Int) := by
        push_cast
        omega
      have e2 : ((max_q : Int) - min_q) = ((max_q - min_q : Nat) : Int) := by omega
      have hnu3 : 4 * (max_q - mod_q) / (max_q - min_q) ≤ 3 := by
        have hlt : 4 * (max_q - mod_q) < 4 * (max_q - min_q) := by omega
        have := (Nat.div_lt_iff_lt_mul (k := max_q - min_q) (by omega)).mpr
          (by omega : 4 * (max_q - mod_q) < 4 * (max_q - min_q))
        omega
      refine ⟨3 - 4 * (max_q - mod_q) / (max_q - min_q),
        4 * (max_q - mod_q) / (max_q - min_q), by omega, ?_⟩
      rw [e1, e2, tdiv_coe]
      simp only [Prod.mk.injEq]
      refine ⟨?_, trivial⟩
      rw [Nat.cast_sub hnu3]
      push_cast
      ring
  · rw [if_neg h1]
    by_cases h2 : mod_q < avg_q
    · rw [if_pos h2]
      have hmodlt : mod_q < max_q := lt_of_lt_of_le h2 ha2
      by_cases hd : ((max_q : Int) - (min_q : Int)) < 4
      · rw [if_pos hd]
        refine ⟨mod_q - min_q, 3 - (mod_q - min_q), by omega, ?_⟩
        simp only [Prod.mk.injEq]
        constructor <;> omega
      · rw [if_neg hd]
        have hd4 : 4 ≤ max_q - min_q := by omega
        have e1 : 4 * ((mod_q : Int) - min_q) = ((4 * (mod_q - min_q) : Nat) : Int) := by
          push_cast
          omega
        have e2 : ((max_q : Int) - min_q) = ((max_q - min_q : Nat) : Int) := by omega
        have hnl3 : 4 * (mod_q - min_q) / (max_q - min_q) ≤ 3 := by
          have := (Nat.div_lt_iff_lt_mul (k := max_q - min_q) (by omega)).mpr
            (by omega : 4 * (mod_q - min_q) < 4 * (max_q - min_q))
          omega
        refine ⟨4 * (mod_q - min_q) / (max_q - min_q),
          3 - 4 * (mod_q - min_q) / (max_q - min_q), by omega, ?_⟩
        rw [e1, e2, tdiv_coe]
        simp only [Prod.mk.injEq]
        refine ⟨trivial, ?_⟩
        rw [Nat.cast_sub hnl3]
        push_cast
        ring
    · rw [if_neg h2]
      exact ⟨1, 2, by omega, rfl⟩

theorem stepLevels_nat (n : Nat) : ∀ (c s : Nat), c + n * s < 2 ^ 32 →
    stepLevels (c : Int) (s : Int) n =
      (List.range n).map fun k => ((c + (k + 1) * s : Nat) : Int) := by
  induction n with
  | zero => intro c s _; rfl
  | succ n ih =>
    intro c s hb
    rw [stepLevels]
    have hexp : (n + 1) * s = s + n * s := by ring
    have hc2 : ((c : Int) + (s : Int)) % 2 ^ 32 = ((c + s : Nat) : Int) := by
      have hlt : ((c : Int) + s) < 2 ^ 32 := by
        have : (2 : Int) ^ 32 = 4294967296 := by norm_num
        have h2 : (2 : Nat) ^ 32 = 4294967296 := by norm_num
        omega
      rw [Int.emod_eq_of_lt (by omega) hlt]
      push_cast
      ring
    simp only [hc2]
    rw [ih (c + s) s (by omega)]
    rw [List.range_succ_eq_map, List.map_cons, List.map_map]
    congr 1
    · congr 1
      omega
    · apply List.map_congr_left
      intro k _
      simp only [Function.comp_apply, Nat.succ_eq_add_one]
      congr 1
      ring

theorem rawLevels_eq (min_q max_q avg_q mod_q : Nat)
    (hm1 : min_q ≤ mod_q) (hm2 : mod_q ≤ max_q)
    (ha1 : min_q ≤ avg_q) (ha2 : avg_q ≤ max_q) (h99 : max_q ≤ 99) :
    ∃ nl nu : Nat, nl + nu = 3 ∧
      rawLevels min_q max_q avg_q mod_q =
        ((List.range nl).map fun k =>
          ((min_q + (k + 1) * ((mod_q - min_q) / (nl + 1)) : Nat) : Int)) ++
        (mod_q : Int) ::
        ((List.range nu).map fun k =>
          ((mod_q + (k + 1) * ((max_q - mod_q) / (nu + 1)) : Nat) : Int)) := by
  obtain ⟨nl, nu, hsum, hpair⟩ := numSplit_eq min_q max_q avg_q mod_q hm1 hm2 ha1 ha2
  refine ⟨nl, nu, hsum, ?_⟩
  rw [rawLevels, hpair]
  have eu : ((max_q : Int) - mod_q) = ((max_q - mod_q : Nat) : Int) := by omega
  have el : ((mod_q : Int) - min_q) = ((mod_q - min_q : Nat) : Int) := by omega
  have enu : ((nu : Int) + 1) = ((nu + 1 : Nat) : Int) := by push_cast; ring
  have enl : ((nl : Int) + 1) = ((nl + 1 : Nat) : Int) := by push_cast; ring
  simp only [eu, el, enu, enl, tdiv_coe, Int.toNat_natCast]
  have hls : (mod_q - min_q) / (nl + 1) ≤ 99 := by
    have := Nat.div_le_self (mod_q - min_q) (nl + 1)
    omega
  have hus : (max_q - mod_q) / (nu + 1) ≤ 99 := by
    have := Nat.div_le_self (max_q - mod_q) (nu + 1)
    omega
  have hb1 : min_q + nl * ((mod_q - min_q) / (nl + 1)) < 2 ^ 32 := by
    have hmul : nl * ((mod_q - min_q) / (nl + 1)) ≤ 3 * 99 :=
      Nat.mul_le_mul (by omega) hls
    have h2 : (2 : Nat) ^ 32 = 4294967296 := by norm_num
    omega
  have hb2 : mod_q + nu * ((max_q - mod_q) / (nu + 1)) < 2 ^ 32 := by
    have hmul : nu * ((max_q - mod_q) / (nu + 1)) ≤ 3 * 99 :=
      Nat.mul_le_mul (by omega) hus
    have h2 : (2 : Nat) ^ 32 = 4294967296 := by norm_num
    omega
  rw [stepLevels_nat nl min_q _ hb1, stepLevels_nat nu mod_q _ hb2]

theorem foldWord_step (w v : Nat) (hw : w ≤ 16777215) (hv : v ≤ 255) :
    ((w <<< 8) ||| v) % 2 ^ 32 = w * 256 + v := by
  rw [Nat.lor_comm, or_shift_eq_add w 8 (by omega)]
  have h2 : (2 : Nat) ^ 8 = 256 := by norm_num
  have h32 : (2 : Nat) ^ 32 = 4294967296 := by norm_num
  rw [h2]
  omega

theorem levels_of_word4 (min_q max_q avg_q mod_q a b c d : Nat)
    (ha : a ≤ 99) (hb : b ≤ 99) (hc : c ≤ 99) (hd : d ≤ 99)
    (hraw : rawLevels min_q max_q avg_q mod_q = [(a : Int), b, c, d]) :
    levelsOf min_q max_q avg_q mod_q = [d, c, b, a] ∧
    levelsWord min_q max_q avg_q mod_q = ((a * 256 + b) * 256 + c) * 256 + d := by
  have hmod : ∀ x : Nat, x ≤ 99 → (((x : Nat) : Int) % 256).toNat = x := by
    intro x hx
    omega
  constructor
  · rw [levelsOf, hraw]
    simp only [List.map_cons, List.map_nil, List.reverse_cons, List.reverse_nil,
      List.nil_append, List.cons_append, hmod a ha, hmod b hb, hmod c hc, hmod d hd]
  · rw [levelsWord, hraw]
    simp only [List.foldl_cons, List.foldl_nil, Int.toNat_natCast]
    rw [foldWord_step 0 a (by omega) (by omega)]
    rw [Nat.zero_mul, Nat.zero_add]
    rw [foldWord_step a b (by omega) (by omega)]
    rw [foldWord_step (a * 256 + b) c (by omega) (by omega)]
    rw [foldWord_step ((a * 256 + b) * 256 + c) d (by omega) (by omega)]

theorem word4_extract (l0 l1 l2 l3 : Nat) (h0 : l0 ≤ 255) (h1 : l1 ≤ 255)
    (h2 : l2 ≤ 255) (h3 : l3 ≤ 255) (k : Nat) (hk : k < 4) :
    ((((l0 * 256 + l1) * 256 + l2) * 256 + l3) >>> (k * 8)) &&& 255 =
      [l3, l2, l1, l0].getD k 0 := by
  rw [and_255, Nat.shiftRight_eq_div_pow]
  interval_cases k <;> norm_num [List.getD] <;> omega

/-- The full characterisation of one window's 4-level decode table:
`levelsOf` is the reversed insertion-order list `[l3, l2, l1, l0]` with
`l0 ≤ l1 ≤ l2 ≤ l3` all inside `[min_q, max_q]`, one of them `mod_q`, and
`levelsWord` packs them first-inserted-highest. -/
theorem levels_spec (min_q max_q avg_q mod_q : Nat)
    (hm1 : min_q ≤ mod_q) (hm2 : mod_q ≤ max_q)
    (ha1 : min_q ≤ avg_q) (ha2 : avg_q ≤ max_q) (h99 : max_q ≤ 99) :
    ∃ l0 l1 l2 l3 : Nat,
      levelsOf min_q max_q avg_q mod_q = [l3, l2, l1, l0] ∧
      levelsWord min_q max_q avg_q mod_q = ((l0 * 256 + l1) * 256 + l2) * 256 + l3 ∧
      l0 ≤ l1 ∧ l1 ≤ l2 ∧ l2 ≤ l3 ∧ min_q ≤ l0 ∧ l3 ≤ max_q ∧
      (mod_q = l0 ∨ mod_q = l1 ∨ mod_q = l2 ∨ mod_q = l3) := by
  obtain ⟨nl, nu, hsum, hraw⟩ := rawLevels_eq min_q max_q avg_q mod_q hm1 hm2 ha1 ha2 h99
  have hcases : (nl = 0 ∧ nu = 3) ∨ (nl = 1 ∧ nu = 2) ∨ (nl = 2 ∧ nu = 1) ∨
      (nl = 3 ∧ nu = 0) := by omega
  rcases hcases with ⟨h1, h2⟩ | ⟨h1, h2⟩ | ⟨h1, h2⟩ | ⟨h1, h2⟩ <;> subst h1 <;> subst h2
  · rw [show List.range 0 = [] from rfl, show List.range 3 = [0, 1, 2] from rfl] at hraw
    simp only [List.map_cons, List.map_nil, List.nil_append] at hraw
    obtain ⟨he1, he2⟩ := levels_of_word4 _ _ _ _
      mod_q (mod_q + (0 + 1) * ((max_q - mod_q) / (3 + 1)))
      (mod_q + (1 + 1) * ((max_q - mod_q) / (3 + 1)))
      (mod_q + (2 + 1) * ((max_q - mod_q) / (3 + 1)))
      (by omega) (by omega) (by omega) (by omega) hraw
    exact ⟨_, _, _, _, he1, he2, by omega, by omega, by omega, by omega, by omega,
      Or.inl rfl⟩
  · rw [show List.range 1 = [0] from rfl, show List.range 2 = [0, 1] from rfl] at hraw
    simp only [List.map_cons, List.map_nil, List.cons_append, List.nil_append] at hraw
    obtain ⟨he1, he2⟩ := levels_of_word4 _ _ _ _
      (min_q + (0 + 1) * ((mod_q - min_q) / (1 + 1))) mod_q
      (mod_q + (0 + 1) * ((max_q - mod_q) / (2 + 1)))
      (mod_q + (1 + 1) * ((max_q - mod_q) / (2 + 1)))
      (by omega) (by omega) (by omega) (by omega) hraw
    exact ⟨_, _, _, _, he1, he2, by omega, by omega, by omega, by omega, by omega,
      Or.inr (Or.inl rfl)⟩
  · rw [show List.range 2 = [0, 1] from rfl, show List.range 1 = [0] from rfl] at hraw
    simp only [List.map_cons, List.map_nil, List.cons_append, List.nil_append] at hraw
    obtain ⟨he1, he2⟩ := levels_of_word4 _ _ _ _
      (min_q + (0 + 1) * ((mod_q - min_q) / (2 + 1)))
      (min_q + (1 + 1) * ((mod_q - min_q) / (2 + 1))) mod_q
      (mod_q + (0 + 1) * ((max_q - mod_q) / (1 + 1)))
      (by omega) (by omega) (by omega) (by omega) hraw
    exact ⟨_, _, _, _, he1, he2, by omega, by omega, by omega, by omega, by omega,
      Or.inr (Or.inr (Or.inl rfl))⟩
  · rw [show List.range 3 = [0, 1, 2] from rfl, show List.range 0 = [] from rfl] at hraw
    simp only [List.map_cons, List.map_nil, List.cons_append, List.nil_append] at hraw
    obtain ⟨he1, he2⟩ := levels_of_word4 _ _ _ _
      (min_q + (0 + 1) * ((mod_q - min_q) / (3 + 1)))
      (min_q + (1 + 1) * ((mod_q - min_q) / (3 + 1)))
      (min_q + (2 + 1) * ((mod_q - min_q) / (3 + 1))) mod_q
      (by omega) (by omega) (by omega) (by omega) hraw
    exact ⟨_, _, _, _, he1, he2, by omega, by omega, by omega, by omega, by omega,
      Or.inr (Or.inr (Or.inr rfl))⟩

/-! ## The argmin scan -/

theorem minIdxGo_spec (rest : List Nat) : ∀ bi bv i,
    (minIdxGo bi bv i rest = bi ∧ ∀ k, k < rest.length → bv ≤ rest.getD k 0) ∨
    (∃ j, j < rest.length ∧ minIdxGo bi bv i rest = i + j ∧
      rest.getD j 0 < bv ∧
      (∀ k, k < rest.length → rest.getD j 0 ≤ rest.getD k 0) ∧
      (∀ k, k < j → rest.getD j 0 < rest.getD k 0)) := by
  induction rest with
  | nil =>
    intro bi bv i
    left
    exact ⟨rfl, by simp⟩
  | cons x xs ih =>
    intro bi bv i
    rw [minIdxGo]
    by_cases hx : x < bv
    · rw [if_pos hx]
      rcases ih i x (i + 1) with ⟨heq, hall⟩ | ⟨j, hj, heq, hlt, hall, hfirst⟩
      · right
        refine ⟨0, by simp, by simpa using heq, by simpa using hx, ?_, by simp⟩
        intro k hk
        cases k with
        | zero => simp
        | succ k =>
          simp only [List.getD_cons_succ, List.getD_cons_zero]
          exact hall k (by simpa using hk)
      · right
        refine ⟨j + 1, by simpa using hj, by rw [heq]; omega, ?_, ?_, ?_⟩
        · simp only [List.getD_cons_succ]
          exact lt_trans hlt hx
        · intro k hk
          cases k with
          | zero =>
            simp only [List.getD_cons_succ, List.getD_cons_zero]
            exact le_of_lt hlt
          | succ k =>
            simp only [List.getD_cons_succ]
            exact hall k (by simpa using hk)
        · intro k hk
          cases k with
          | zero =>
            simp only [List.getD_cons_succ, List.getD_cons_zero]
            exact hlt
          | succ k =>
            simp only [List.getD_cons_succ]
            exact hfirst k (by omega)
    · rw [if_neg hx]
      push_neg at hx
      rcases ih bi bv (i + 1) with ⟨heq, hall⟩ | ⟨j, hj, heq, hlt, hall, hfirst⟩
      · left
        refine ⟨heq, ?_⟩
        intro k hk
        cases k with
        | zero => simpa using hx
        | succ k =>
          simp only [List.getD_cons_succ]
          exact hall k (by simpa using hk)
      · right
        refine ⟨j + 1, by simpa using hj, by rw [heq]; omega, ?_, ?_, ?_⟩
        · simp only [List.getD_cons_succ]
          exact hlt
        · intro k hk
          cases k with
          | zero =>
            simp only [List.getD_cons_succ, List.getD_cons_zero]
            exact le_trans (le_of_lt hlt) hx
          | succ k =>
            simp only [List.getD_cons_succ]
            exact hall k (by simpa using hk)
        · intro k hk
          cases k with
          | zero =>
            simp only [List.getD_cons_succ, List.getD_cons_zero]
            exact lt_of_lt_of_le hlt hx
          | succ k =>
            simp only [List.getD_cons_succ]
            exact hfirst k (by omega)

theorem minIdx_spec (l : List Nat) (hne : l ≠ []) :
    minIdx l < l.length ∧
    (∀ k, k < l.length → l.getD (minIdx l) 0 ≤ l.getD k 0) ∧
    (∀ k, k < minIdx l → l.getD k 0 ≠ l.getD (minIdx l) 0) := by
  cases l with
  | nil => exact absurd rfl hne
  | cons x xs =>
    rw [minIdx]
    rcases minIdxGo_spec xs 0 x 1 with ⟨heq, hall⟩ | ⟨j, hj, heq, hlt, hall, hfirst⟩
    · rw [heq]
      refine ⟨by simp, ?_, by simp⟩
      intro k hk
      cases k with
      | zero => simp
      | succ k =>
        simp only [List.getD_cons_succ, List.getD_cons_zero]
        exact hall k (by simpa using hk)
    · rw [heq]
      have h1j : 1 + j = j + 1 := by omega
      refine ⟨by simp; omega, ?_, ?_⟩
      · intro k hk
        rw [h1j]
        cases k with
        | zero =>
          simp only [List.getD_cons_succ, List.getD_cons_zero]
          exact le_of_lt hlt
        | succ k =>
          simp only [List.getD_cons_succ]
          exact hall k (by simpa using hk)
      · intro k hk
        rw [h1j] at hk ⊢
        cases k with
        | zero =>
          simp only [List.getD_cons_succ, List.getD_cons_zero]
          omega
        | succ k =>
          simp only [List.getD_cons_succ]
          have := hfirst k (by omega)
          omega

/-! ## Window decomposition -/

theorem windowsOf_nil : windowsOf [] = [] := by
  rw [windowsOf]
  simp

theorem windowsOf_cons (vals : List Nat) (hne : vals ≠ []) :
    windowsOf vals = vals.take 512 :: windowsOf (vals.drop 512) := by
  rw [windowsOf]
  simp [hne]

theorem windowsOf_length (vals : List Nat) :
    (windowsOf vals).length = (vals.length + 511) / 512 := by
  by_cases hne : vals = []
  · simp [hne, windowsOf_nil]
  · rw [windowsOf_cons vals hne, List.length_cons, windowsOf_length (vals.drop 512)]
    have hpos : 0 < vals.length := List.length_pos.mpr hne
    simp only [List.length_drop]
    omega
termination_by vals.length
decreasing_by
  simp only [List.length_drop]
  have h2 : 0 < vals.length := List.length_pos.mpr hne
  omega

theorem windowsOf_get (vals : List Nat) : ∀ k, 512 * k < vals.length →
    (windowsOf vals).get? k = some ((vals.drop (512 * k)).take 512) := by
  intro k hk
  have hne : vals ≠ [] := by
    intro h
    rw [h] at hk
    simp at hk
  rw [windowsOf_cons vals hne]
  cases k with
  | zero => simp
  | succ k =>
    simp only [List.get?_eq_getElem?, List.getElem?_cons_succ]
    have hk' : 512 * k < (vals.drop 512).length := by
      simp only [List.length_drop]
      omega
    have := windowsOf_get (vals.drop 512) k hk'
    simp only [List.get?_eq_getElem?] at this
    rw [this, List.drop_drop, show 512 + 512 * k = 512 * (k + 1) from by omega]
termination_by vals.length
decreasing_by
  simp only [List.length_drop]
  have h2 : 0 < vals.length := List.length_pos.mpr hne
  omega

theorem packWords_length (cs : List Nat) :
    (packWords cs).length = (cs.length + 31) / 32 := by
  by_cases hne : cs = []
  · simp [hne, packWords_nil]
  · rw [packWords_cons cs hne, List.length_cons, packWords_length (cs.drop 32)]
    have hpos : 0 < cs.length := List.length_pos.mpr hne
    simp only [List.length_drop]
    omega
termination_by cs.length
decreasing_by
  simp only [List.length_drop]
  have h2 : 0 < cs.length := List.length_pos.mpr hne
  omega

theorem codesList_nil : codesList [] = [] := by
  rw [codesList, windowsOf_nil]
  rfl

theorem codesList_cons (vals : List Nat) (hne : vals ≠ []) :
    codesList vals = (vals.take 512).map (codeOfVal (winLevels (vals.take 512))) ++
      codesList (vals.drop 512) := by
  rw [codesList, codesList, windowsOf_cons vals hne, List.map_cons, List.flatten_cons]

theorem codesList_length (vals : List Nat) : (codesList vals).length = vals.length := by
  by_cases hne : vals = []
  · simp [hne, codesList_nil]
  · rw [codesList_cons vals hne, List.length_append, List.length_map,
      codesList_length (vals.drop 512)]
    simp only [List.length_take, List.length_drop]
    omega
termination_by vals.length
decreasing_by
  simp only [List.length_drop]
  have h2 : 0 < vals.length := List.length_pos.mpr hne
  omega

theorem getD_map_lt (l : List Nat) (f : Nat → Nat) {i : Nat} (hi : i < l.length) :
    (l.map f).getD i 0 = f (l.getD i 0) := by
  rw [List.getD_eq_getElem?_getD, List.getD_eq_getElem?_getD, List.getElem?_map,
    List.getElem?_eq_getElem hi]
  rfl

theorem getD_take_lt (l : List Nat) {n i : Nat} (hi : i < n) :
    (l.take n).getD i 0 = l.getD i 0 := by
  rw [List.getD_eq_getElem?_getD, List.getD_eq_getElem?_getD, List.getElem?_take,
    if_pos hi]

theorem getD_drop (l : List Nat) (n i : Nat) :
    (l.drop n).getD i 0 = l.getD (n + i) 0 := by
  rw [List.getD_eq_getElem?_getD, List.getD_eq_getElem?_getD, List.getElem?_drop]

/-- Position `i`'s 2-bit quality code is the argmin code of the window
containing `i`, computed over that window's level table. -/
theorem codesList_getD (vals : List Nat) : ∀ i, i < vals.length →
    (codesList vals).getD i 0 =
      codeOfVal (winLevels ((vals.drop (512 * (i / 512))).take 512)) (vals.getD i 0) := by
  intro i hi
  have hne : vals ≠ [] := by
    intro h
    rw [h] at hi
    simp at hi
  rw [codesList_cons vals hne]
  by_cases h512 : i < 512
  · have hidiv : i / 512 = 0 := by omega
    rw [hidiv]
    simp only [Nat.mul_zero, List.drop_zero]
    have hlen1 : i < ((vals.take 512).map (codeOfVal (winLevels (vals.take 512)))).length := by
      simp only [List.length_map, List.length_take]
      omega
    rw [List.getD_append _ _ _ i hlen1,
      getD_map_lt _ _ (by simp only [List.length_take]; omega),
      getD_take_lt vals h512]
  · have h512' : 512 ≤ i := by omega
    have hlen1 : ((vals.take 512).map (codeOfVal (winLevels (vals.take 512)))).length = 512 := by
      simp only [List.length_map, List.length_take]
      omega
    rw [List.getD_append_right _ _ _ i (by omega), hlen1]
    have hi' : i - 512 < (vals.drop 512).length := by
      simp only [List.length_drop]
      omega
    rw [codesList_getD (vals.drop 512) (i - 512) hi']
    rw [List.drop_drop, getD_drop]
    have e1 : 512 + 512 * ((i - 512) / 512) = 512 * (i / 512) := by omega
    have e2 : 512 + (i - 512) = i := by omega
    rw [e1, e2]
termination_by vals.length
decreasing_by
  simp only [List.length_drop]
  have h2 : 0 < vals.length := List.length_pos.mpr hne
  omega

theorem winLevels_spec (w : List Nat) (hne : w ≠ []) (h100 : ∀ v ∈ w, v < 100) :
    ∃ l0 l1 l2 l3 : Nat,
      winLevels w = [l3, l2, l1, l0] ∧
      winWord w = ((l0 * 256 + l1) * 256 + l2) * 256 + l3 ∧
      l0 ≤ l1 ∧ l1 ≤ l2 ∧ l2 ≤ l3 ∧ winMin w ≤ l0 ∧ l3 ≤ winMax w ∧
      (winMod w = l0 ∨ winMod w = l1 ∨ winMod w = l2 ∨ winMod w = l3) := by
  have hminw := winMin_spec w hne h100
  have hmaxw := winMax_spec w hne h100
  have hmodw := winMod_spec w hne h100
  have havgw := winAvg_spec w hne h100
  have hmax99 : winMax w ≤ 99 := by have := h100 _ hmaxw.1; omega
  exact levels_spec _ _ _ _ (hminw.2 _ hmodw) (hmaxw.2 _ hmodw) havgw.1 havgw.2 hmax99

theorem winLevels_length (w : List Nat) (hne : w ≠ []) (h100 : ∀ v ∈ w, v < 100) :
    (winLevels w).length = 4 := by
  obtain ⟨l0, l1, l2, l3, he, _⟩ := winLevels_spec w hne h100
  rw [he]
  rfl

theorem codeOfVal_lt (lv : List Nat) (v : Nat) (hlv : lv.length = 4) :
    codeOfVal lv v < 4 := by
  have hlvne : lv ≠ [] := by
    intro h
    rw [h] at hlv
    simp at hlv
  have hdne : diffsOf lv v ≠ [] := by
    simp [diffsOf, hlvne]
  have hd := (minIdx_spec (diffsOf lv v) hdne).1
  rw [codeOfVal]
  simp only [diffsOf, List.length_map, hlv] at hd ⊢
  exact hd

theorem decideQL_eq (w : List Nat) (il i : Nat) (hlen : il - i = w.length) :
    decideQualityLevels (freqSpec w) w.sum il i = (winLevels w, winWord w) := by
  rw [decideQualityLevels, hlen]
  rfl

theorem encWindowGo_cons (qlen : Nat) (lv : List Nat) (j block : Nat)
    (acc : List Nat) (v : Nat) (rest : List Nat) :
    encWindowGo qlen lv j block acc (v :: rest) =
      if j = qlen - 1 ∨ (j + 1) % 32 = 0 then
        encWindowGo qlen lv (j + 1) 0
          ((block ||| (codeOfVal lv v <<< ((2 * j) % 64))) :: acc) rest
      else
        encWindowGo qlen lv (j + 1)
          (block ||| (codeOfVal lv v <<< ((2 * j) % 64))) acc rest := by
  rw [encWindowGo]

theorem encWindowGo_ok (qlen : Nat) (lv : List Nat) (hlv : lv.length = 4)
    (w : List Nat) : ∀ (pending acc : List Nat) (j : Nat),
      w ≠ [] →
      (∀ c ∈ pending, c < 4) →
      j % 32 = pending.length →
      j + w.length ≤ qlen →
      (32 ∣ (j + w.length) ∨ j + w.length = qlen) →
      encWindowGo qlen lv j (packWord pending) acc w =
        acc.reverse ++ packWords (pending ++ w.map (codeOfVal lv)) := by
  induction w with
  | nil => intro _ _ _ hne; exact absurd rfl hne
  | cons v rest ih =>
    intro pending acc j _ h4 hjlen hle hflushend
    have hc4 : codeOfVal lv v < 4 := codeOfVal_lt lv v hlv
    have hplen : pending.length < 32 := by
      rw [← hjlen]
      exact Nat.mod_lt j (by norm_num)
    have hmod : (2 * j) % 64 = 2 * pending.length := by omega
    have h44 : (4 : Nat) ^ pending.length = 2 ^ (2 * pending.length) := by
      rw [pow_mul]
      norm_num
    have hlt : packWord pending < 2 ^ (2 * pending.length) := by
      have := packWord_lt pending h4
      omega
    have hblock : packWord pending ||| (codeOfVal lv v <<< ((2 * j) % 64)) =
        packWord (pending ++ [codeOfVal lv v]) := by
      rw [hmod, or_shift_eq_add _ _ hlt, packWord_snoc, h44]
    have h4' : ∀ c ∈ pending ++ [codeOfVal lv v], c < 4 := by
      intro c hcmem
      rcases List.mem_append.mp hcmem with h | h
      · exact h4 c h
      · simp at h
        omega
    cases rest with
    | nil =>
      have hcond : j = qlen - 1 ∨ (j + 1) % 32 = 0 := by
        rcases hflushend with ⟨t, ht⟩ | hend
        · right
          simp only [List.length_cons, List.length_nil] at ht
          omega
        · left
          simp only [List.length_cons, List.length_nil] at hend
          omega
      rw [encWindowGo_cons, if_pos hcond, hblock]
      have hbase : encWindowGo qlen lv (j + 1) 0
          (packWord (pending ++ [codeOfVal lv v]) :: acc) [] =
          (packWord (pending ++ [codeOfVal lv v]) :: acc).reverse := rfl
      rw [hbase,
        show pending ++ List.map (codeOfVal lv) [v] = pending ++ [codeOfVal lv v] by simp,
        packWords_small (pending ++ [codeOfVal lv v]) (by simp) (by simp; omega)]
      simp
    | cons v2 rest2 =>
      have hne2 : j ≠ qlen - 1 := by
        simp only [List.length_cons] at hle
        omega
      have hsplit : pending ++ List.map (codeOfVal lv) (v :: v2 :: rest2) =
          (pending ++ [codeOfVal lv v]) ++ (v2 :: rest2).map (codeOfVal lv) := by
        simp
      rw [encWindowGo_cons, hblock, hsplit]
      have hlenrw : (j + 1) + (v2 :: rest2).length = j + (v :: v2 :: rest2).length := by
        simp
        omega
      by_cases hflush : (j + 1) % 32 = 0
      · rw [if_pos (Or.inr hflush)]
        have hp31 : pending.length = 31 := by omega
        have hrec := ih [] (packWord (pending ++ [codeOfVal lv v]) :: acc) (j + 1)
          (by simp) (by simp) (by simp [hflush])
          (by rw [hlenrw]; exact hle) (by rw [hlenrw]; exact hflushend)
        rw [packWord_nil] at hrec
        simp only [List.nil_append] at hrec
        rw [hrec,
          packWords_append (pending ++ [codeOfVal lv v]) ((v2 :: rest2).map (codeOfVal lv))
            (by simp [hp31]),
          packWords_small (pending ++ [codeOfVal lv v]) (by simp) (by simp; omega)]
        simp
      · rw [if_neg (by simp [hne2, hflush])]
        have hrec := ih (pending ++ [codeOfVal lv v]) acc (j + 1)
          (by simp) h4' (by simp; omega)
          (by rw [hlenrw]; exact hle) (by rw [hlenrw]; exact hflushend)
        rw [hrec]

theorem decideQL_fst (w : List Nat) (il i : Nat) (hlen : il - i = w.length) :
    (decideQualityLevels (freqSpec w) w.sum il i).1 = winLevels w := by
  rw [decideQL_eq w il i hlen]

theorem decideQL_snd (w : List Nat) (il i : Nat) (hlen : il - i = w.length) :
    (decideQualityLevels (freqSpec w) w.sum il i).2 = winWord w := by
  rw [decideQL_eq w il i hlen]

theorem qualLoop_nil (qlen i : Nat) : qualLoop qlen i [] = some ([], []) := by
  rw [qualLoop]
  simp

theorem qualLoop_step (qlen i : Nat) (vals : List Nat) (hne : vals ≠ [])
    (f : List Nat) (s : Nat) (dqr qlr : List Nat)
    (hfs : windowFreqSum (vals.take 512) = some (f, s))
    (hrec : qualLoop qlen (i + 512) (vals.drop 512) = some (dqr, qlr)) :
    qualLoop qlen i vals = some
      (encWindowGo qlen (decideQualityLevels f s (min (i + 512) qlen) i).1 i 0 []
        (vals.take 512) ++ dqr,
       (decideQualityLevels f s (min (i + 512) qlen) i).2 :: qlr) := by
  rw [qualLoop, dif_neg hne, hfs, hrec]

/-- The window loop produces exactly the packed per-window argmin codes and
the per-window level words. -/
theorem qualLoop_ok (vals : List Nat) : ∀ i : Nat,
    (∀ v ∈ vals, v < 100) → i % 512 = 0 →
    qualLoop (i + vals.length) i vals =
      some (packWords (codesList vals), levelWords vals) := by
  intro i h100 hi512
  by_cases hne : vals = []
  · subst hne
    rw [qualLoop_nil]
    simp [codesList_nil, levelWords, windowsOf_nil, packWords_nil]
  · have hpos : 0 < vals.length := List.length_pos.mpr hne
    have hwsub : ∀ v ∈ vals.take 512, v < 100 := fun v hv => h100 v (List.mem_of_mem_take hv)
    have hwne : vals.take 512 ≠ [] := by
      intro h
      have := congrArg List.length h
      simp only [List.length_take, List.length_nil] at this
      omega
    have hwlen : (vals.take 512).length = min 512 vals.length := List.length_take 512 vals
    have hil : min (i + 512) (i + vals.length) - i = (vals.take 512).length := by
      rw [hwlen]
      omega
    have hlv4 : (winLevels (vals.take 512)).length = 4 :=
      winLevels_length (vals.take 512) hwne hwsub
    have hi32 : i % 32 = 0 := by omega
    have henc := encWindowGo_ok (i + vals.length) (winLevels (vals.take 512)) hlv4
      (vals.take 512) [] [] i hwne (by simp) (by simpa using hi32)
      (by rw [hwlen]; omega)
      (by
        by_cases h512 : vals.length ≤ 512
        · right
          rw [hwlen]
          omega
        · left
          rw [hwlen]
          exact ⟨i / 32 + 16, by omega⟩)
    rw [packWord_nil] at henc
    simp only [List.reverse_nil, List.nil_append] at henc
    by_cases hdrop : vals.length ≤ 512
    · have hdropnil : vals.drop 512 = [] := by
        apply List.eq_nil_of_length_eq_zero
        simp only [List.length_drop]
        omega
      rw [qualLoop_step (i + vals.length) i vals hne (freqSpec (vals.take 512))
        (vals.take 512).sum [] [] (windowFreqSum_ok _ hwsub)
        (by rw [hdropnil, qualLoop_nil])]
      rw [decideQL_fst _ _ _ hil, decideQL_snd _ _ _ hil, henc]
      rw [codesList_cons vals hne, hdropnil, codesList_nil, List.append_nil,
        List.append_nil]
      rw [levelWords, windowsOf_cons vals hne, hdropnil, windowsOf_nil, List.map_cons,
        List.map_nil]
    · push_neg at hdrop
      have hdroplen : (vals.drop 512).length = vals.length - 512 := List.length_drop 512 vals
      have hqlen : i + vals.length = (i + 512) + (vals.drop 512).length := by
        rw [hdroplen]
        omega
      have hrec := qualLoop_ok (vals.drop 512) (i + 512)
        (fun v hv => h100 v (List.mem_of_mem_drop hv)) (by omega)
      rw [← hqlen] at hrec
      rw [qualLoop_step (i + vals.length) i vals hne (freqSpec (vals.take 512))
        (vals.take 512).sum _ _ (windowFreqSum_ok _ hwsub) hrec]
      rw [decideQL_fst _ _ _ hil, decideQL_snd _ _ _ hil, henc]
      rw [codesList_cons vals hne,
        packWords_append ((vals.take 512).map (codeOfVal (winLevels (vals.take 512))))
          (codesList (vals.drop 512)) (by simp only [List.length_map, hwlen]; omega)]
      rw [levelWords, levelWords, windowsOf_cons vals hne, List.map_cons]
termination_by vals.length
decreasing_by
  simp only [List.length_drop]
  omega

/-- `NucleicAcid(name, data, quality)` in closed form. -/
theorem mkNucleicAcidQ_eq (name data quality : List Nat)
    (hd : ∀ b ∈ data, coderAt b ≠ 255)
    (hq : ∀ b ∈ quality, (b + 223) % 256 < 100) :
    mkNucleicAcidQ name data quality = some
      { name := name
        deflated_data := packWords (data.map coderAt)
        deflated_quality := packWords (codesList (phredVals quality))
        quality_levels := levelWords (phredVals quality)
        inflated_len := data.length
        is_reverse_complement := false } := by
  have h100 : ∀ v ∈ phredVals quality, v < 100 := by
    intro v hv
    rcases List.mem_map.mp hv with ⟨b, hb, rfl⟩
    exact hq b hb
  have hlen : quality.length = (phredVals quality).length := by
    rw [phredVals, List.length_map]
  rw [mkNucleicAcidQ, mkNucleicAcid_eq name data hd]
  show (qualLoop quality.length 0 (phredVals quality)).bind _ = _
  rw [hlen, show (phredVals quality).length = 0 + (phredVals quality).length by omega,
    qualLoop_ok (phredVals quality) 0 h100 (by omega)]
  rfl

theorem codesList_lt4 (vals : List Nat) (h100 : ∀ v ∈ vals, v < 100) :
    ∀ c ∈ codesList vals, c < 4 := by
  by_cases hne : vals = []
  · subst hne
    rw [codesList_nil]
    simp
  · intro c hc
    have hwne : vals.take 512 ≠ [] := by
      have hpos : 0 < vals.length := List.length_pos.mpr hne
      intro h
      have := congrArg List.length h
      simp only [List.length_take, List.length_nil] at this
      omega
    have hwsub : ∀ v ∈ vals.take 512, v < 100 :=
      fun v hv => h100 v (List.mem_of_mem_take hv)
    rw [codesList_cons vals hne] at hc
    rcases List.mem_append.mp hc with h | h
    · rcases List.mem_map.mp h with ⟨v, _, rfl⟩
      exact codeOfVal_lt _ _ (winLevels_length _ hwne hwsub)
    · exact codesList_lt4 (vals.drop 512)
        (fun v hv => h100 v (List.mem_of_mem_drop hv)) c h
termination_by vals.length
decreasing_by
  simp only [List.length_drop]
  have h2 : 0 < vals.length := List.length_pos.mpr hne
  omega

theorem levelWords_get (vals : List Nat) {i : Nat} (hi : i < vals.length) :
    (levelWords vals).get? (i / 512) =
      some (winWord ((vals.drop (512 * (i / 512))).take 512)) := by
  have hlt : 512 * (i / 512) < vals.length := by omega
  have hwin := windowsOf_get vals (i / 512) hlt
  rw [levelWords, List.get?_eq_getElem?, List.getElem?_map]
  rw [List.get?_eq_getElem?] at hwin
  rw [hwin]
  rfl

theorem window_at_ne_nil (vals : List Nat) {i : Nat} (hi : i < vals.length) :
    (vals.drop (512 * (i / 512))).take 512 ≠ [] := by
  intro h
  have := congrArg List.length h
  simp only [List.length_take, List.length_drop, List.length_nil] at this
  omega

theorem window_at_sub (vals : List Nat) (k : Nat) :
    ∀ v ∈ (vals.drop k).take 512, v ∈ vals :=
  fun v hv => List.mem_of_mem_drop (List.mem_of_mem_take hv)

theorem window_at_getD (vals : List Nat) {i : Nat} (hi : i < vals.length) :
    ((vals.drop (512 * (i / 512))).take 512).getD (i % 512) 0 = vals.getD i 0 := by
  rw [getD_take_lt _ (by omega : i % 512 < 512), getD_drop]
  congr 1
  omega

theorem scoreQ_forward (r : NucleicAcid) (hf : r.is_reverse_complement = false)
    (i : Nat) :
    scoreQ r i = (r.deflated_quality.get? (i >>> 5)).bind fun w =>
      (r.quality_levels.get? (i >>> 9)).bind fun lw =>
      some ((lw >>> (((w >>> ((2 * i) % 64)) &&& 3) * 8)) &&& 255) := by
  rw [scoreQ, hf]
  rfl

/-- `Score(i)` on a forward read whose quality buffers are the packed encoding
of `vals`: it returns the level of `i`'s window selected by the stored argmin
code. -/
theorem scoreQ_char (vals : List Nat) (h100 : ∀ v ∈ vals, v < 100)
    (r : NucleicAcid)
    (hdq : r.deflated_quality = packWords (codesList vals))
    (hql : r.quality_levels = levelWords vals)
    (hf : r.is_reverse_complement = false)
    (i : Nat) (hi : i < vals.length) :
    scoreQ r i = some (((winLevels ((vals.drop (512 * (i / 512))).take 512)).getD
      (codeOfVal (winLevels ((vals.drop (512 * (i / 512))).take 512))
        (vals.getD i 0)) 0)) := by
  have hilen : i < (codesList vals).length := by
    rw [codesList_length]
    exact hi
  have hext := packWords_extract (codesList vals) (codesList_lt4 vals h100) i hilen
  rw [extractCode] at hext
  obtain ⟨w0, hw0, hfw0⟩ := Option.map_eq_some'.mp hext
  have hwne := window_at_ne_nil vals hi
  have hwsub : ∀ v ∈ (vals.drop (512 * (i / 512))).take 512, v < 100 :=
    fun v hv => h100 v (window_at_sub vals _ v hv)
  have hcode := codesList_getD vals i hi
  obtain ⟨l0, l1, l2, l3, hlv, hword, h01, h12, h23, hminl, hmaxl, hmodl⟩ :=
    winLevels_spec _ hwne hwsub
  have hmax99 : winMax ((vals.drop (512 * (i / 512))).take 512) ≤ 99 := by
    have hmem := (winMax_spec _ hwne hwsub).1
    have := hwsub _ hmem
    omega
  have hc4 : codeOfVal (winLevels ((vals.drop (512 * (i / 512))).take 512))
      (vals.getD i 0) < 4 :=
    codeOfVal_lt _ _ (winLevels_length _ hwne hwsub)
  have hshift9 : i >>> 9 = i / 512 := by
    rw [Nat.shiftRight_eq_div_pow]
  have hlw := levelWords_get vals hi
  rw [scoreQ_forward r hf i, hdq, hql, hshift9, hw0, Option.some_bind, hlw,
    Option.some_bind, hfw0, hcode]
  generalize hgen : codeOfVal (winLevels ((vals.drop (512 * (i / 512))).take 512))
    (vals.getD i 0) = c at hc4 ⊢
  congr 1
  rw [hword, hlv]
  exact word4_extract l0 l1 l2 l3 (by omega) (by omega) (by omega) (by omega) c hc4

theorem getD_mem (l : List Nat) {k : Nat} (hk : k < l.length) : l.getD k 0 ∈ l := by
  rw [← getElem_eq_getD l hk]
  exact List.getElem_mem hk

theorem winLevels_antitone (w : List Nat) (hne : w ≠ []) (h100 : ∀ v ∈ w, v < 100) :
    ∀ k1 k2, k1 ≤ k2 → k2 < 4 →
      (winLevels w).getD k2 0 ≤ (winLevels w).getD k1 0 := by
  obtain ⟨l0, l1, l2, l3, hlv, _, h01, h12, h23, _⟩ := winLevels_spec w hne h100
  intro k1 k2 h12' h4
  rw [hlv]
  interval_cases k2 <;> interval_cases k1 <;> simp [List.getD] <;> omega

theorem winLevels_mem_bounds (w : List Nat) (hne : w ≠ []) (h100 : ∀ v ∈ w, v < 100) :
    ∀ l ∈ winLevels w, winMin w ≤ l ∧ l ≤ winMax w := by
  obtain ⟨l0, l1, l2, l3, hlv, _, h01, h12, h23, hminl, hmaxl, _⟩ :=
    winLevels_spec w hne h100
  intro l hl
  rw [hlv] at hl
  simp only [List.mem_cons, List.not_mem_nil, or_false] at hl
  rcases hl with rfl | rfl | rfl | rfl <;> omega

theorem winMod_mem_levels (w : List Nat) (hne : w ≠ []) (h100 : ∀ v ∈ w, v < 100) :
    winMod w ∈ winLevels w := by
  obtain ⟨l0, l1, l2, l3, hlv, _, _, _, _, _, _, hmod⟩ := winLevels_spec w hne h100
  rw [hlv]
  rcases hmod with h | h | h | h <;> simp [h]

theorem diffsOf_getD (lv : List Nat) (v : Nat) {k : Nat} (hk : k < lv.length) :
    (diffsOf lv v).getD k 0 = (((lv.getD k 0 : Nat) : Int) - (v : Int)).natAbs := by
  rw [diffsOf, getD_map_lt lv _ hk]

theorem diffsOf_length (lv : List Nat) (v : Nat) :
    (diffsOf lv v).length = lv.length := by
  rw [diffsOf, List.length_map]

theorem codeOfVal_min (lv : List Nat) (v : Nat) (hne : lv ≠ []) :
    ∀ k, k < lv.length →
      (((lv.getD (codeOfVal lv v) 0 : Nat) : Int) - (v : Int)).natAbs ≤
      (((lv.getD k 0 : Nat) : Int) - (v : Int)).natAbs := by
  intro k hk
  have hdne : diffsOf lv v ≠ [] := by simpa [diffsOf] using hne
  obtain ⟨hlt, hmin, _⟩ := minIdx_spec (diffsOf lv v) hdne
  rw [diffsOf_length] at hlt
  have := hmin k (by rw [diffsOf_length]; exact hk)
  rw [diffsOf_getD lv v hlt, diffsOf_getD lv v hk] at this
  exact this

theorem codeOfVal_first (lv : List Nat) (v : Nat) (hne : lv ≠ []) :
    ∀ k, k < codeOfVal lv v →
      (((lv.getD k 0 : Nat) : Int) - (v : Int)).natAbs ≠
      (((lv.getD (codeOfVal lv v) 0 : Nat) : Int) - (v : Int)).natAbs := by
  intro k hk
  have hdne : diffsOf lv v ≠ [] := by simpa [diffsOf] using hne
  obtain ⟨hlt, _, hfirst⟩ := minIdx_spec (diffsOf lv v) hdne
  have hklen : k < lv.length := by
    rw [codeOfVal] at hk
    rw [← diffsOf_length lv v]
    omega
  have := hfirst k hk
  rw [diffsOf_length] at hlt
  rw [diffsOf_getD lv v hklen, diffsOf_getD lv v hlt] at this
  exact this

theorem numSplit_range (min_q max_q avg_q mod_q : Nat)
    (hm1 : min_q ≤ mod_q) (hm2 : mod_q ≤ max_q)
    (ha1 : min_q ≤ avg_q) (ha2 : avg_q ≤ max_q) :
    0 ≤ (numSplit min_q max_q avg_q mod_q).1 ∧
    (numSplit min_q max_q avg_q mod_q).1 ≤ 3 ∧
    0 ≤ (numSplit min_q max_q avg_q mod_q).2 ∧
    (numSplit min_q max_q avg_q mod_q).2 ≤ 3 := by
  obtain ⟨nl, nu, hsum, hpair⟩ := numSplit_eq min_q max_q avg_q mod_q hm1 hm2 ha1 ha2
  rw [hpair]
  refine ⟨Int.natCast_nonneg nl, ?_, Int.natCast_nonneg nu, ?_⟩ <;>
    show ((_ : Nat) : Int) ≤ 3 <;> omega

theorem scoreQ_empty (r : NucleicAcid) (h : r.deflated_quality = []) (i : Nat) :
    scoreQ r i = none := by
  rw [scoreQ]
  simp [h]

theorem scoreQ_rc (r : NucleicAcid) (hf : r.is_reverse_complement = false)
    (hn : r.inflated_len < 2 ^ 32) (i : Nat) (hi : i < r.inflated_len) :
    scoreQ (reverseAndComplement r) i = scoreQ r (r.inflated_len - 1 - i) := by
  have hflag : (reverseAndComplement r).is_reverse_complement = true := by
    simp [reverseAndComplement, hf]
  have hlen : (reverseAndComplement r).inflated_len = r.inflated_len := rfl
  have hpow : (2 : Int) ^ 32 = 4294967296 := by norm_num
  have hn' : r.inflated_len < 4294967296 := by
    have h32 : (2 : Nat) ^ 32 = 4294967296 := by norm_num
    omega
  have hj : ((((r.inflated_len : Int) - (i : Int) - 1) % 4294967296)).toNat
      = r.inflated_len - 1 - i := by
    omega
  rw [scoreQ, scoreQ, hflag, hf]
  simp only [if_true, ite_true, Bool.false_eq_true, if_false, ite_false, hlen,
    hpow, hj]
  rfl

/-! ## Claims C1, C3, C7, C8 -/

/-- Claim C1 (amended): construction succeeds exactly when every data byte has
a coder entry other than 255.  All of `{A,C,G,T,a,c,g,t}` are accepted, but so
are `'N'` and the other IUPAC ambiguity bytes (see `c1_counterexample`), so the
claim that `'N'` fails is corrected to: only bytes whose `kNucleotideCoder`
entry is 255 abort construction with the invalid-argument error. -/
theorem c1_theorem (name data : List Nat) :
    (mkNucleicAcid name data).isSome ↔ ∀ b ∈ data, coderAt b ≠ 255 := by
  constructor
  · intro hs
    by_contra hno
    push_neg at hno
    rcases hno with ⟨b, hb, hcb⟩
    have hnone := encodeDataGo_none data ⟨b, hb, not_not.mp (by simpa using hcb)⟩ 0 0 []
    rw [mkNucleicAcid, encodeData, hnone] at hs
    simp at hs
  · intro hok
    rw [mkNucleicAcid, encodeData_ok data hok]
    rfl

/-- Claim C1, counterexample to the frozen wording: a data buffer containing
`'N'` (byte 78) does NOT fail — construction succeeds, the coder maps `'N'`
to the code 0. -/
theorem c1_counterexample :
    Char.toNat 'N' = 78 ∧ (mkNucleicAcid [] [78]).isSome = true ∧ coderAt 78 = 0 := by
  refine ⟨by decide, by decide, by decide⟩

/-- Claim C3 (confirmed): for every string over `{A,C,G,T,a,c,g,t}` (any
length, including 0), constructing and then inflating the whole range yields
exactly the uppercased input. -/
theorem c3_theorem (name data : List Nat)
    (h : ∀ b ∈ data, b ∈ ([65, 67, 71, 84, 97, 99, 103, 116] : List Nat)) :
    (mkNucleicAcid name data).bind (fun r => inflateData r 0 data.length) =
      some (data.map fun b => Char.ofNat (if 97 ≤ b then b - 32 else b)) := by
  have hok : ∀ b ∈ data, coderAt b ≠ 255 := by
    intro b hb
    have hmem := h b hb
    fin_cases hmem <;> decide
  rw [mkNucleicAcid_eq name data hok]
  show inflateData _ 0 data.length = _
  by_cases hnil : data = []
  · subst hnil
    simp [inflateData]
  · have hlen0 : 0 < data.length := List.length_pos.mpr hnil
    rw [inflateData, if_neg (Nat.not_le.mpr hlen0)]
    simp only [Nat.sub_zero, Nat.min_self]
    have hcodes : ∀ c ∈ data.map coderAt, c < 4 := by
      intro c hc
      rcases List.mem_map.mp hc with ⟨b, hb, rfl⟩
      exact (coderAt_cases b).resolve_left (hok b hb)
    have hpt : ∀ k ∈ List.range data.length,
        (do
          let c ← codeQ
            { name := name
              deflated_data := packWords (data.map coderAt)
              deflated_quality := []
              quality_levels := []
              inflated_len := data.length
              is_reverse_complement := false } (0 + k)
          kNucleotideDecoder.get? c) =
          some (Char.ofNat (if 97 ≤ data.getD k 0 then data.getD k 0 - 32
            else data.getD k 0)) := by
      intro k hk
      have hklen : k < data.length := List.mem_range.mp hk
      rw [Nat.zero_add, codeQ_forward _ rfl]
      show (extractCode (packWords (data.map coderAt)) k).bind _ = _
      rw [packWords_extract (data.map coderAt) hcodes k (by simpa using hklen)]
      have hgd : (data.map coderAt).getD k 0 = coderAt (data.getD k 0) := by
        rw [List.getD_eq_getElem?_getD, List.getElem?_map,
          List.getElem?_eq_getElem hklen]
        simp [List.getD_eq_getElem?_getD, List.getElem?_eq_getElem hklen]
      rw [Option.some_bind, hgd]
      have hmem : data.getD k 0 ∈ data := by
        rw [List.getD_eq_getElem?_getD, List.getElem?_eq_getElem hklen]
        exact List.getElem_mem hklen
      exact decoder_upper (h (data.getD k 0) hmem)
    rw [mapM_eq_some_map _ _ _ hpt]
    congr 1
    exact map_range_getD data 0 fun b => Char.ofNat (if 97 ≤ b then b - 32 else b)

/-- Claim C3 witness: a mixed-case concrete instance, `"AcGt" -> "ACGT"`. -/
theorem c3_witness :
    (∀ b ∈ ([65, 99, 71, 116] : List Nat),
        b ∈ ([65, 67, 71, 84, 97, 99, 103, 116] : List Nat)) ∧
    (mkNucleicAcid [] [65, 99, 71, 116]).bind (fun r => inflateData r 0 4) =
      some ['A', 'C', 'G', 'T'] :=
  ⟨by decide, by
    have := c3_theorem [] [65, 99, 71, 116] (by decide)
    simpa using this⟩

/-- Claim C7 (confirmed): `ReverseAndComplement` applied twice restores the
exact record, hence every decode result (`Code`, `Score`, `InflateData`,
`InflateQuality`) at every position; the operation is total (no error
condition). -/
theorem c7_theorem (r : NucleicAcid) :
    reverseAndComplement (reverseAndComplement r) = r ∧
    (∀ i, codeQ (reverseAndComplement (reverseAndComplement r)) i = codeQ r i) ∧
    (∀ i, scoreQ (reverseAndComplement (reverseAndComplement r)) i = scoreQ r i) ∧
    (∀ i len, inflateData (reverseAndComplement (reverseAndComplement r)) i len =
      inflateData r i len) ∧
    (∀ i len, inflateQuality (reverseAndComplement (reverseAndComplement r)) i len =
      inflateQuality r i len) := by
  have h : reverseAndComplement (reverseAndComplement r) = r := by
    cases r
    simp [reverseAndComplement]
  exact ⟨h, fun i => by rw [h], fun i => by rw [h], fun i len => by rw [h],
    fun i len => by rw [h]⟩

/-- Claim C8 (confirmed): in forward orientation, after one
`ReverseAndComplement`, `Code(i)` is the 2-bit complement (`xor 3`) of the
original `Code(inflated_len - 1 - i)`, for every `i < inflated_len` (the
length bound `2 ^ 32` reflects the `uint32` length field of the source). -/
theorem c8_theorem (r : NucleicAcid) (hf : r.is_reverse_complement = false)
    (hn : r.inflated_len < 2 ^ 32) (i : Nat) (hi : i < r.inflated_len) :
    codeQ (reverseAndComplement r) i =
      (codeQ r (r.inflated_len - 1 - i)).map fun c => c ^^^ 3 := by
  have hflag : (reverseAndComplement r).is_reverse_complement = true := by
    simp [reverseAndComplement, hf]
  have hlen : (reverseAndComplement r).inflated_len = r.inflated_len := rfl
  have hdd : (reverseAndComplement r).deflated_data = r.deflated_data := rfl
  have hpow : (2 : Int) ^ 32 = 4294967296 := by norm_num
  have hn' : r.inflated_len < 4294967296 := by
    have h32 : (2 : Nat) ^ 32 = 4294967296 := by norm_num
    omega
  have hj : ((((r.inflated_len : Int) - (i : Int) - 1) % 4294967296)).toNat
      = r.inflated_len - 1 - i := by
    omega
  simp only [codeQ, hflag, hf, hdd, hlen, if_true, if_false, Bool.false_eq_true,
    ite_true, ite_false, hpow, hj]
  rw [Option.map_map]
  congr 1
  funext w
  simp

/-- Claim C8 witness: the read built from `"ACGT"`. -/
theorem c8_witness :
    codeQ (reverseAndComplement ⟨[], [228], [], [], 4, false⟩) 0 =
      (codeQ (⟨[], [228], [], [], 4, false⟩ : NucleicAcid) (4 - 1 - 0)).map
        (fun c => c ^^^ 3) :=
  c8_theorem ⟨[], [228], [], [], 4, false⟩ rfl (by norm_num) 0 (by norm_num)

/-! ## Claims C2, C4, C5, C6, C9, C10 -/

/-- Claim C2 (amended): the quality stream is quantized in fixed windows of
512 symbols (not 1024; the last window may be shorter), so the level table has
exactly `ceil(quality_len / 512)` entries. -/
theorem c2_theorem (name data quality : List Nat)
    (hd : ∀ b ∈ data, coderAt b ≠ 255)
    (hq : ∀ b ∈ quality, 33 ≤ b ∧ b ≤ 126) :
    ((mkNucleicAcidQ name data quality).map fun r => r.quality_levels.length) =
      some ((quality.length + 511) / 512) := by
  have hq' : ∀ b ∈ quality, (b + 223) % 256 < 100 := by
    intro b hb
    have := hq b hb
    omega
  rw [mkNucleicAcidQ_eq name data quality hd hq', Option.map_some']
  congr 1
  show (levelWords (phredVals quality)).length = _
  rw [levelWords, List.length_map, windowsOf_length, phredVals, List.length_map]

/-- Claim C2 witness: one window for a single-symbol quality buffer. -/
theorem c2_witness :
    ((mkNucleicAcidQ [] [65] [53]).map fun r => r.quality_levels.length) =
      some 1 := by
  have := c2_theorem [] [65] [53] (by decide) (by decide)
  simpa using this

/-- Claim C2 counterexample: 513 quality bytes yield 2 level-table entries,
not `ceil(513 / 1024) = 1` as the claim states. -/
theorem c2_counterexample :
    ((mkNucleicAcidQ [] (List.replicate 513 65) (List.replicate 513 53)).map
      fun r => r.quality_levels.length) = some 2 ∧ (513 + 1023) / 1024 = 1 := by
  have hd : ∀ b ∈ List.replicate 513 (65 : Nat), coderAt b ≠ 255 := by
    intro b hb
    rw [List.eq_of_mem_replicate hb]
    decide
  have hq : ∀ b ∈ List.replicate 513 (53 : Nat), (b + 223) % 256 < 100 := by
    intro b hb
    rw [List.eq_of_mem_replicate hb]
    decide
  refine ⟨?_, by norm_num⟩
  rw [mkNucleicAcidQ_eq [] _ _ hd hq, Option.map_some']
  congr 1
  show (levelWords (phredVals (List.replicate 513 53))).length = 2
  rw [levelWords, List.length_map, windowsOf_length, phredVals, List.length_map,
    List.length_replicate]

/-- Claim C9 (amended): construction never fails for quality bytes `b` with
`(b - '!') mod 256 < 100` (in particular the whole Phred range `['!', '~']`);
bytes outside that range index the 100-entry `quality_freq` vector out of
bounds (modelled as failure), so not every byte value is accepted. -/
theorem c9_theorem (name data quality : List Nat)
    (hd : ∀ b ∈ data, coderAt b ≠ 255)
    (hq : ∀ b ∈ quality, (b + 223) % 256 < 100) :
    (mkNucleicAcidQ name data quality).isSome = true := by
  rw [mkNucleicAcidQ_eq name data quality hd hq]
  rfl

/-- Claim C9 witness: a concrete in-range construction. -/
theorem c9_witness : (mkNucleicAcidQ [] [65] [33]).isSome = true :=
  c9_theorem [] [65] [33] (by decide) (by decide)

/-- Claim C5 (confirmed): with valid Phred input and forward orientation,
`Score(i)` reads the level word of the window containing `i` (index `i >> 9`,
the same 512-symbol boundaries used at encode time), extracts the byte at
shift `index * 8` where `index` is the stored 2-bit code counted from the
last-inserted (least-significant) level, and the result is a level of that
window at minimal absolute distance from the original Phred value at `i`. -/
theorem c5_theorem (name data quality : List Nat)
    (hd : ∀ b ∈ data, coderAt b ≠ 255)
    (hq : ∀ b ∈ quality, 33 ≤ b ∧ b ≤ 126)
    (r : NucleicAcid) (hr : mkNucleicAcidQ name data quality = some r)
    (i : Nat) (hi : i < quality.length) :
    ∃ s, scoreQ r i = some s ∧
      s ∈ winLevels (((phredVals quality).drop (512 * (i / 512))).take 512) ∧
      ∀ l ∈ winLevels (((phredVals quality).drop (512 * (i / 512))).take 512),
        ((s : Int) - ((phredVals quality).getD i 0 : Int)).natAbs ≤
          ((l : Int) - ((phredVals quality).getD i 0 : Int)).natAbs := by
  have hq' : ∀ b ∈ quality, (b + 223) % 256 < 100 := by
    intro b hb
    have := hq b hb
    omega
  have hmk := mkNucleicAcidQ_eq name data quality hd hq'
  rw [hmk] at hr
  obtain rfl := Option.some.inj hr
  have h100 : ∀ v ∈ phredVals quality, v < 100 := by
    intro v hv
    rcases List.mem_map.mp hv with ⟨b, hb, rfl⟩
    exact hq' b hb
  have hivals : i < (phredVals quality).length := by
    rw [phredVals, List.length_map]
    exact hi
  have hsc := scoreQ_char (phredVals quality) h100
    ⟨name, packWords (data.map coderAt), packWords (codesList (phredVals quality)),
      levelWords (phredVals quality), data.length, false⟩ rfl rfl rfl i hivals
  have hwne := window_at_ne_nil (phredVals quality) hivals
  have hwsub : ∀ v ∈ ((phredVals quality).drop (512 * (i / 512))).take 512, v < 100 :=
    fun v hv => h100 v (window_at_sub (phredVals quality) _ v hv)
  have hlvlen := winLevels_length _ hwne hwsub
  have hlvne : winLevels (((phredVals quality).drop (512 * (i / 512))).take 512) ≠ [] := by
    intro h
    rw [h] at hlvlen
    simp at hlvlen
  have hc4 := codeOfVal_lt _ ((phredVals quality).getD i 0) hlvlen
  refine ⟨_, hsc, getD_mem _ (by omega), ?_⟩
  intro l hl
  obtain ⟨k, hk, rfl⟩ := List.getElem_of_mem hl
  rw [getElem_eq_getD _ hk]
  exact codeOfVal_min _ ((phredVals quality).getD i 0) hlvne k hk

/-- Claim C5 witness: a uniform quality buffer of copies of `'5'` (Phred 20)
decodes position 0 back to exactly 20, the level of minimal distance. -/
theorem c5_witness :
    ((mkNucleicAcidQ [] (List.replicate 4 65) (List.replicate 4 53)).bind
      fun r => scoreQ r 0) = some 20 := by
  have hd : ∀ b ∈ List.replicate 4 (65 : Nat), coderAt b ≠ 255 := by
    intro b hb
    rw [List.eq_of_mem_replicate hb]
    decide
  have hq : ∀ b ∈ List.replicate 4 (53 : Nat), 33 ≤ b ∧ b ≤ 126 := by
    intro b hb
    rw [List.eq_of_mem_replicate hb]
    exact ⟨by norm_num, by norm_num⟩
  have hq' : ∀ b ∈ List.replicate 4 (53 : Nat), (b + 223) % 256 < 100 := by
    intro b hb
    rw [List.eq_of_mem_replicate hb]
    decide
  have hmk := mkNucleicAcidQ_eq [] (List.replicate 4 65) (List.replicate 4 53)
    hd hq'
  obtain ⟨s, hs, hmem, _⟩ := c5_theorem [] (List.replicate 4 65)
    (List.replicate 4 53) hd hq _ hmk 0 (by decide)
  rw [hmk]
  show scoreQ _ 0 = some 20
  rw [hs]
  congr 1
  have hwin : winLevels (((phredVals (List.replicate 4 53)).drop (512 * (0 / 512))).take 512)
      = [20, 20, 20, 20] := by decide
  rw [hwin] at hmem
  simp only [List.mem_cons, List.not_mem_nil, or_false] at hmem
  rcases hmem with rfl | rfl | rfl | rfl <;> rfl

/-- Claim C4 (amended): the stored 2-bit code (counted from the last-inserted
level) denotes a level at minimal absolute distance from the quality value,
and when two levels are at equal distance the tie is broken toward the HIGHER
level: `min_element` scans `curr_levels` after `std::reverse`, i.e. in
descending order, so its first minimum is the largest tied level (the frozen
claim says the lower level wins, refuted by `c4_counterexample`). -/
theorem c4_theorem (name data quality : List Nat)
    (hd : ∀ b ∈ data, coderAt b ≠ 255)
    (hq : ∀ b ∈ quality, 33 ≤ b ∧ b ≤ 126)
    (r : NucleicAcid) (hr : mkNucleicAcidQ name data quality = some r)
    (i : Nat) (hi : i < quality.length) :
    ∃ c, extractCode r.deflated_quality i = some c ∧
      c < (winLevels (((phredVals quality).drop (512 * (i / 512))).take 512)).length ∧
      (∀ k, k < (winLevels (((phredVals quality).drop (512 * (i / 512))).take 512)).length →
        (((winLevels (((phredVals quality).drop (512 * (i / 512))).take 512)).getD c 0 : Int) -
            ((phredVals quality).getD i 0 : Int)).natAbs ≤
          (((winLevels (((phredVals quality).drop (512 * (i / 512))).take 512)).getD k 0 : Int) -
            ((phredVals quality).getD i 0 : Int)).natAbs) ∧
      (∀ k, k < (winLevels (((phredVals quality).drop (512 * (i / 512))).take 512)).length →
        (((winLevels (((phredVals quality).drop (512 * (i / 512))).take 512)).getD k 0 : Int) -
            ((phredVals quality).getD i 0 : Int)).natAbs =
          (((winLevels (((phredVals quality).drop (512 * (i / 512))).take 512)).getD c 0 : Int) -
            ((phredVals quality).getD i 0 : Int)).natAbs →
        (winLevels (((phredVals quality).drop (512 * (i / 512))).take 512)).getD k 0 ≤
          (winLevels (((phredVals quality).drop (512 * (i / 512))).take 512)).getD c 0) := by
  have hq' : ∀ b ∈ quality, (b + 223) % 256 < 100 := by
    intro b hb
    have := hq b hb
    omega
  have hmk := mkNucleicAcidQ_eq name data quality hd hq'
  rw [hmk] at hr
  obtain rfl := Option.some.inj hr
  have h100 : ∀ v ∈ phredVals quality, v < 100 := by
    intro v hv
    rcases List.mem_map.mp hv with ⟨b, hb, rfl⟩
    exact hq' b hb
  have hivals : i < (phredVals quality).length := by
    rw [phredVals, List.length_map]
    exact hi
  have hwne := window_at_ne_nil (phredVals quality) hivals
  have hwsub : ∀ v ∈ ((phredVals quality).drop (512 * (i / 512))).take 512, v < 100 :=
    fun v hv => h100 v (window_at_sub (phredVals quality) _ v hv)
  have hlvlen := winLevels_length _ hwne hwsub
  have hlvne : winLevels (((phredVals quality).drop (512 * (i / 512))).take 512) ≠ [] := by
    intro h
    rw [h] at hlvlen
    simp at hlvlen
  have hilen : i < (codesList (phredVals quality)).length := by
    rw [codesList_length]
    exact hivals
  have hext := packWords_extract (codesList (phredVals quality))
    (codesList_lt4 _ h100) i hilen
  have hcode := codesList_getD (phredVals quality) i hivals
  refine ⟨codeOfVal (winLevels (((phredVals quality).drop (512 * (i / 512))).take 512))
    ((phredVals quality).getD i 0), ?_, ?_, ?_, ?_⟩
  · show extractCode (packWords (codesList (phredVals quality))) i = _
    rw [hext, hcode]
  · rw [hlvlen]
    exact codeOfVal_lt _ _ hlvlen
  · intro k hk
    exact codeOfVal_min _ _ hlvne k hk
  · intro k hk htie
    by_cases hkc : k < codeOfVal (winLevels (((phredVals quality).drop (512 * (i / 512))).take 512))
        ((phredVals quality).getD i 0)
    · exact absurd htie (codeOfVal_first _ _ hlvne k hkc)
    · push_neg at hkc
      exact winLevels_antitone _ hwne hwsub _ k hkc (by omega)

set_option maxRecDepth 8000 in
/-- Claim C4 counterexample: quality bytes `"!!)\x22"` give window Phred values
`[0, 0, 8, 1]` with level set `{0, 2, 4, 6}`.  The value 1 is tied between
levels 0 and 2 (distance 1), and the code stores level 2 — the HIGHER tied
level — so `Score(3)` returns 2, not 0 as the frozen tie-break claims. -/
theorem c4_counterexample :
    ((mkNucleicAcidQ [] [65, 65, 65, 65] [33, 33, 41, 34]).bind fun r => scoreQ r 3) =
      some 2 ∧
    winLevels (phredVals [33, 33, 41, 34]) = [6, 4, 2, 0] ∧
    ((0 : Int) - 1).natAbs = ((2 : Int) - 1).natAbs ∧ (0 : Nat) < 2 := by
  refine ⟨?_, by decide, by decide, by decide⟩
  have hmk := mkNucleicAcidQ_eq [] [65, 65, 65, 65] [33, 33, 41, 34]
    (by decide) (by decide)
  rw [hmk]
  show scoreQ _ 3 = some 2
  have h100 : ∀ v ∈ phredVals [33, 33, 41, 34], v < 100 := by decide
  have hsc := scoreQ_char (phredVals [33, 33, 41, 34]) h100
    ⟨[], packWords (([65, 65, 65, 65] : List Nat).map coderAt),
      packWords (codesList (phredVals [33, 33, 41, 34])),
      levelWords (phredVals [33, 33, 41, 34]), ([65, 65, 65, 65] : List Nat).length,
      false⟩ rfl rfl rfl 3 (by decide)
  rw [hsc]
  decide

/-- Claim C6 (confirmed): each window's level set has exactly 4 levels, one of
which is `mod_q`; every stored 2-bit index is in `{0,1,2,3}`; every decoded
`Score` lies within `[min_q, max_q]` of its window; and the skew-split counts
`num_lower` and `num_upper` both land in `[0, 3]`. -/
theorem c6_theorem (name data quality : List Nat)
    (hd : ∀ b ∈ data, coderAt b ≠ 255)
    (hq : ∀ b ∈ quality, 33 ≤ b ∧ b ≤ 126)
    (r : NucleicAcid) (hr : mkNucleicAcidQ name data quality = some r)
    (i : Nat) (hi : i < quality.length) :
    (winLevels (((phredVals quality).drop (512 * (i / 512))).take 512)).length = 4 ∧
    winMod (((phredVals quality).drop (512 * (i / 512))).take 512) ∈
      winLevels (((phredVals quality).drop (512 * (i / 512))).take 512) ∧
    (∃ c, extractCode r.deflated_quality i = some c ∧ c < 4) ∧
    (∃ s, scoreQ r i = some s ∧
      winMin (((phredVals quality).drop (512 * (i / 512))).take 512) ≤ s ∧
      s ≤ winMax (((phredVals quality).drop (512 * (i / 512))).take 512)) ∧
    0 ≤ (numSplit (winMin (((phredVals quality).drop (512 * (i / 512))).take 512))
      (winMax (((phredVals quality).drop (512 * (i / 512))).take 512))
      (winAvg (((phredVals quality).drop (512 * (i / 512))).take 512))
      (winMod (((phredVals quality).drop (512 * (i / 512))).take 512))).1 ∧
    (numSplit (winMin (((phredVals quality).drop (512 * (i / 512))).take 512))
      (winMax (((phredVals quality).drop (512 * (i / 512))).take 512))
      (winAvg (((phredVals quality).drop (512 * (i / 512))).take 512))
      (winMod (((phredVals quality).drop (512 * (i / 512))).take 512))).1 ≤ 3 ∧
    0 ≤ (numSplit (winMin (((phredVals quality).drop (512 * (i / 512))).take 512))
      (winMax (((phredVals quality).drop (512 * (i / 512))).take 512))
      (winAvg (((phredVals quality).drop (512 * (i / 512))).take 512))
      (winMod (((phredVals quality).drop (512 * (i / 512))).take 512))).2 ∧
    (numSplit (winMin (((phredVals quality).drop (512 * (i / 512))).take 512))
      (winMax (((phredVals quality).drop (512 * (i / 512))).take 512))
      (winAvg (((phredVals quality).drop (512 * (i / 512))).take 512))
      (winMod (((phredVals quality).drop (512 * (i / 512))).take 512))).2 ≤ 3 := by
  have hq' : ∀ b ∈ quality, (b + 223) % 256 < 100 := by
    intro b hb
    have := hq b hb
    omega
  have hmk := mkNucleicAcidQ_eq name data quality hd hq'
  rw [hmk] at hr
  obtain rfl := Option.some.inj hr
  have h100 : ∀ v ∈ phredVals quality, v < 100 := by
    intro v hv
    rcases List.mem_map.mp hv with ⟨b, hb, rfl⟩
    exact hq' b hb
  have hivals : i < (phredVals quality).length := by
    rw [phredVals, List.length_map]
    exact hi
  have hwne := window_at_ne_nil (phredVals quality) hivals
  have hwsub : ∀ v ∈ ((phredVals quality).drop (512 * (i / 512))).take 512, v < 100 :=
    fun v hv => h100 v (window_at_sub (phredVals quality) _ v hv)
  have hlvlen := winLevels_length _ hwne hwsub
  have hminw := winMin_spec _ hwne hwsub
  have hmaxw := winMax_spec _ hwne hwsub
  have hmodw := winMod_spec _ hwne hwsub
  have havgw := winAvg_spec _ hwne hwsub
  have hrange := numSplit_range
    (winMin (((phredVals quality).drop (512 * (i / 512))).take 512))
    (winMax (((phredVals quality).drop (512 * (i / 512))).take 512))
    (winAvg (((phredVals quality).drop (512 * (i / 512))).take 512))
    (winMod (((phredVals quality).drop (512 * (i / 512))).take 512))
    (hminw.2 _ hmodw) (hmaxw.2 _ hmodw) havgw.1 havgw.2
  have hilen : i < (codesList (phredVals quality)).length := by
    rw [codesList_length]
    exact hivals
  have hext := packWords_extract (codesList (phredVals quality))
    (codesList_lt4 _ h100) i hilen
  have hcode := codesList_getD (phredVals quality) i hivals
  have hsc := scoreQ_char (phredVals quality) h100
    ⟨name, packWords (data.map coderAt), packWords (codesList (phredVals quality)),
      levelWords (phredVals quality), data.length, false⟩ rfl rfl rfl i hivals
  have hc4 := codeOfVal_lt _ ((phredVals quality).getD i 0) hlvlen
  have hsmem : (winLevels (((phredVals quality).drop (512 * (i / 512))).take 512)).getD
      (codeOfVal (winLevels (((phredVals quality).drop (512 * (i / 512))).take 512))
        ((phredVals quality).getD i 0)) 0 ∈
      winLevels (((phredVals quality).drop (512 * (i / 512))).take 512) :=
    getD_mem _ (by omega)
  have hsbounds := winLevels_mem_bounds _ hwne hwsub _ hsmem
  exact ⟨hlvlen, winMod_mem_levels _ hwne hwsub,
    ⟨_, by
      show extractCode (packWords (codesList (phredVals quality))) i = _
      rw [hext, hcode], hc4⟩,
    ⟨_, hsc, hsbounds.1, hsbounds.2⟩,
    hrange.1, hrange.2.1, hrange.2.2.1, hrange.2.2.2⟩

/-- Claim C9 counterexample: the quality byte `' '` (32, below `'!'`) drives
`quality[j] - '!'` to 255, an out-of-bounds index into the 100-entry frequency
vector, so the quality-encoding pass does not complete. -/
theorem c9_counterexample : mkNucleicAcidQ [] [65] [32] = none := by
  have h1 : qualLoop ([32] : List Nat).length 0 (phredVals [32]) = none := by
    rw [qualLoop, dif_neg (show ¬(phredVals [32] = []) by decide),
      show windowFreqSum ((phredVals [32]).take 512) = none from by decide]
  rw [mkNucleicAcidQ, mkNucleicAcid_eq [] [65] (by decide), h1]
  rfl

/-- Claim C4 witness: a concrete in-range construction produces a stored code. -/
theorem c4_witness :
    (extractCode (packWords (codesList (phredVals [53]))) 0).isSome = true := by
  obtain ⟨c, hc, -, -, -⟩ := c4_theorem [] [65] [53] (by decide) (by decide) _
    (mkNucleicAcidQ_eq [] [65] [53] (by decide) (by decide)) 0 (by decide)
  rw [show extractCode (packWords (codesList (phredVals [53]))) 0 = some c from hc]
  rfl

/-- Claim C6 witness: the invariants instantiated at a concrete construction. -/
theorem c6_witness :
    (winLevels (((phredVals [53]).drop (512 * (0 / 512))).take 512)).length = 4 ∧
    winMod (((phredVals [53]).drop (512 * (0 / 512))).take 512) ∈
      winLevels (((phredVals [53]).drop (512 * (0 / 512))).take 512) := by
  obtain ⟨h1, h2, -, -, -, -, -, -⟩ := c6_theorem [] [65] [53] (by decide) (by decide) _
    (mkNucleicAcidQ_eq [] [65] [53] (by decide) (by decide)) 0 (by decide)
  exact ⟨h1, h2⟩

theorem get_isSome_of_lt (l : List Nat) {n : Nat} (h : n < l.length) :
    (l.get? n).isSome = true := by
  rw [List.get?_eq_getElem?, List.getElem?_eq_getElem h]
  rfl

/-- Claim C10 (confirmed): with a quality buffer of the data's length and
valid Phred bytes, every container access of `Score(i)` for `i < inflated_len`
is in bounds in both orientations — the packed quality word at `i >> 5` (the
32-codes-per-word layout; the spec's `i/32` word), and the level-table word at
`i >> 9` — so `Score` returns a value; whereas a read built without quality
has an empty packed quality buffer and `Score(k)` goes out of bounds (modelled
as `none`) for every `k`. -/
theorem c10_theorem (name data quality : List Nat)
    (hd : ∀ b ∈ data, coderAt b ≠ 255)
    (hq : ∀ b ∈ quality, 33 ≤ b ∧ b ≤ 126)
    (hlen : quality.length = data.length)
    (hsz : data.length < 2 ^ 32)
    (r0 : NucleicAcid) (hr0 : mkNucleicAcid name data = some r0)
    (r : NucleicAcid) (hr : mkNucleicAcidQ name data quality = some r)
    (k i : Nat) (hi : i < r.inflated_len) :
    scoreQ r0 k = none ∧
    (r.deflated_quality.get? (i >>> 5)).isSome = true ∧
    (r.quality_levels.get? (i >>> 9)).isSome = true ∧
    (scoreQ r i).isSome = true ∧
    (scoreQ (reverseAndComplement r) i).isSome = true := by
  have hq' : ∀ b ∈ quality, (b + 223) % 256 < 100 := by
    intro b hb
    have := hq b hb
    omega
  have hmk := mkNucleicAcidQ_eq name data quality hd hq'
  rw [hmk] at hr
  obtain rfl := Option.some.inj hr
  rw [mkNucleicAcid_eq name data hd] at hr0
  obtain rfl := Option.some.inj hr0
  have h100 : ∀ v ∈ phredVals quality, v < 100 := by
    intro v hv
    rcases List.mem_map.mp hv with ⟨b, hb, rfl⟩
    exact hq' b hb
  have hi' : i < data.length := hi
  have hivals : i < (phredVals quality).length := by
    rw [phredVals, List.length_map, hlen]
    exact hi'
  have h5 : i >>> 5 = i / 32 := by
    rw [Nat.shiftRight_eq_div_pow]
  have h9 : i >>> 9 = i / 512 := by
    rw [Nat.shiftRight_eq_div_pow]
  refine ⟨scoreQ_empty _ rfl k, ?_, ?_, ?_, ?_⟩
  · show ((packWords (codesList (phredVals quality))).get? (i >>> 5)).isSome = true
    refine get_isSome_of_lt _ ?_
    rw [packWords_length, codesList_length, h5]
    omega
  · show ((levelWords (phredVals quality)).get? (i >>> 9)).isSome = true
    refine get_isSome_of_lt _ ?_
    rw [levelWords, List.length_map, windowsOf_length, h9]
    omega
  · rw [scoreQ_char (phredVals quality) h100
      ⟨name, packWords (data.map coderAt), packWords (codesList (phredVals quality)),
        levelWords (phredVals quality), data.length, false⟩ rfl rfl rfl i hivals]
    rfl
  · have hrc := scoreQ_rc
      ⟨name, packWords (data.map coderAt), packWords (codesList (phredVals quality)),
        levelWords (phredVals quality), data.length, false⟩ rfl hsz i hi
    rw [hrc]
    have hj : data.length - 1 - i < (phredVals quality).length := by
      rw [phredVals, List.length_map, hlen]
      omega
    rw [scoreQ_char (phredVals quality) h100
      ⟨name, packWords (data.map coderAt), packWords (codesList (phredVals quality)),
        levelWords (phredVals quality), data.length, false⟩ rfl rfl rfl _ hj]
    rfl

/-- Claim C10 witness: a concrete construction with matching lengths, accessed
at position 0 (and position 7 for the no-quality read). -/
theorem c10_witness :
    scoreQ (⟨[], [0], [], [], 1, false⟩ : NucleicAcid) 7 = none ∧
    ((packWords (codesList (phredVals [53]))).get? (0 >>> 5)).isSome = true ∧
    ((levelWords (phredVals [53])).get? (0 >>> 9)).isSome = true ∧
    (scoreQ (⟨[], packWords (([65] : List Nat).map coderAt),
      packWords (codesList (phredVals [53])), levelWords (phredVals [53]),
      ([65] : List Nat).length, false⟩ : NucleicAcid) 0).isSome = true ∧
    (scoreQ (reverseAndComplement ⟨[], packWords (([65] : List Nat).map coderAt),
      packWords (codesList (phredVals [53])), levelWords (phredVals [53]),
      ([65] : List Nat).length, false⟩) 0).isSome = true :=
  c10_theorem [] [65] [53] (by decide) (by decide) rfl (by norm_num) _
    (by decide)
    _ (mkNucleicAcidQ_eq [] [65] [53] (by decide) (by decide)) 7 0 (by decide)

end biosoup
